import Mathlib

set_option maxRecDepth 8000

/-!
Verification development for the periodic-links recognition-and-resolution
engine: the granularity detector (`periodic-note-detector.ts`), the phrase
resolver (`natural-language-parser.ts`) and the phrase recognizer
(`main.ts`).  Text is modelled as `List Char` over ASCII; the external
`moment` date library is modelled from the specification's description of
`ReferenceDate` (timezone-naive calendar dates with calendar-unit
arithmetic and field queries).
-/

/-! ## Character and list utilities (JavaScript string primitives, ASCII) -/

/-- ASCII lower-casing, modelling `String.prototype.toLowerCase` on ASCII
    (spelled as an explicit table so proofs can case on it). -/
def lowerChar (c : Char) : Char :=
  match c with
  | 'A' => 'a' | 'B' => 'b' | 'C' => 'c' | 'D' => 'd' | 'E' => 'e'
  | 'F' => 'f' | 'G' => 'g' | 'H' => 'h' | 'I' => 'i' | 'J' => 'j'
  | 'K' => 'k' | 'L' => 'l' | 'M' => 'm' | 'N' => 'n' | 'O' => 'o'
  | 'P' => 'p' | 'Q' => 'q' | 'R' => 'r' | 'S' => 's' | 'T' => 't'
  | 'U' => 'u' | 'V' => 'v' | 'W' => 'w' | 'X' => 'x' | 'Y' => 'y'
  | 'Z' => 'z' | c => c

def lowerL (l : List Char) : List Char := l.map lowerChar

/-- Whitespace class used by `trim` and the regex class backslash-s (ASCII part). -/
def isWsChar (c : Char) : Bool :=
  c == ' ' || c == '\t' || c == '\n' || c == '\r'

/-- JavaScript `String.prototype.trim` (ASCII whitespace). -/
def trimL (l : List Char) : List Char :=
  ((l.dropWhile isWsChar).reverse.dropWhile isWsChar).reverse

/-- Numeric value of a digit string, modelling `parseInt` on an all-digit
    capture (exact arithmetic; the source's float imprecision for huge
    inputs is not modelled). -/
def parseDigits (l : List Char) : Nat :=
  l.foldl (fun a c => 10 * a + (c.toNat - 48)) 0

def digitChar : Nat → Char
  | 0 => '0' | 1 => '1' | 2 => '2' | 3 => '3' | 4 => '4'
  | 5 => '5' | 6 => '6' | 7 => '7' | 8 => '8' | _ => '9'

def natDigitsAux : Nat → Nat → List Char
  | 0, _ => []
  | fuel + 1, n =>
    if n < 10 then [digitChar n]
    else natDigitsAux fuel (n / 10) ++ [digitChar (n % 10)]

/-- Decimal digit list of a natural number (fueled, hence structurally
    recursive and kernel-evaluable). -/
def natDigits (n : Nat) : List Char := natDigitsAux (n + 1) n

/-! ## The date model

Modelled from the spec: `ReferenceDate` is "a timezone-naive calendar
date/time value supporting addition/subtraction of calendar units
(day/week/month/quarter/year) and field queries (day-of-week, month,
quarter)" (spec §3).  The source delegates these operations to the external
`moment` library, which is not part of this repository; the calendar
arithmetic below follows the proleptic Gregorian calendar with moment's
day-of-month clamping on month/year arithmetic. -/

structure RDate where
  y : Nat
  m : Nat
  d : Nat
deriving DecidableEq

def isLeap (y : Nat) : Bool :=
  (y % 4 == 0 && y % 100 != 0) || y % 400 == 0

def daysInMonth (y m : Nat) : Nat :=
  if m = 2 then (if isLeap y then 29 else 28)
  else if m = 4 ∨ m = 6 ∨ m = 9 ∨ m = 11 then 30
  else 31

def validDate (D : RDate) : Bool :=
  1 ≤ D.m && D.m ≤ 12 && 1 ≤ D.d && D.d ≤ daysInMonth D.y D.m

def succDay (D : RDate) : RDate :=
  if D.d < daysInMonth D.y D.m then ⟨D.y, D.m, D.d + 1⟩
  else if D.m < 12 then ⟨D.y, D.m + 1, 1⟩
  else ⟨D.y + 1, 1, 1⟩

/-- Previous calendar day (clamped at year 0, which no claim reaches). -/
def predDay (D : RDate) : RDate :=
  if 1 < D.d then ⟨D.y, D.m, D.d - 1⟩
  else if 1 < D.m then ⟨D.y, D.m - 1, daysInMonth D.y (D.m - 1)⟩
  else if 0 < D.y then ⟨D.y - 1, 12, 31⟩
  else D

def addDays (D : RDate) : Nat → RDate
  | 0 => D
  | n + 1 => succDay (addDays D n)

def subDays (D : RDate) : Nat → RDate
  | 0 => D
  | n + 1 => predDay (subDays D n)

def monthsIndex (D : RDate) : Nat := D.y * 12 + (D.m - 1)

def fromMonthsIndex (t d : Nat) : RDate :=
  let y := t / 12
  let m := t % 12 + 1
  ⟨y, m, min d (daysInMonth y m)⟩

def addMonths (D : RDate) (n : Nat) : RDate := fromMonthsIndex (monthsIndex D + n) D.d

def subMonths (D : RDate) (n : Nat) : RDate := fromMonthsIndex (monthsIndex D - n) D.d

def addYears (D : RDate) (n : Nat) : RDate :=
  ⟨D.y + n, D.m, min D.d (daysInMonth (D.y + n) D.m)⟩

def subYears (D : RDate) (n : Nat) : RDate :=
  ⟨D.y - n, D.m, min D.d (daysInMonth (D.y - n) D.m)⟩

/-- moment duration units as produced by `normalizeUnit`. -/
inductive MUnit | days | weeks | months | quarters | years
deriving DecidableEq

def addUnit (D : RDate) (n : Nat) : MUnit → RDate
  | .days => addDays D n
  | .weeks => addDays D (7 * n)
  | .months => addMonths D n
  | .quarters => addMonths D (3 * n)
  | .years => addYears D n

def subUnit (D : RDate) (n : Nat) : MUnit → RDate
  | .days => subDays D n
  | .weeks => subDays D (7 * n)
  | .months => subMonths D n
  | .quarters => subMonths D (3 * n)
  | .years => subYears D n

inductive Weekday | sunday | monday | tuesday | wednesday | thursday | friday | saturday
deriving DecidableEq

def Weekday.idx : Weekday → Nat
  | .sunday => 0 | .monday => 1 | .tuesday => 2 | .wednesday => 3
  | .thursday => 4 | .friday => 5 | .saturday => 6

def weekdayOfIdx : Nat → Weekday
  | 0 => .sunday | 1 => .monday | 2 => .tuesday | 3 => .wednesday
  | 4 => .thursday | 5 => .friday | _ => .saturday

/-- Day of week (0 = Sunday), Sakamoto's method on the Gregorian calendar. -/
def weekdayNum (D : RDate) : Nat :=
  let y := if D.m < 3 then D.y - 1 else D.y
  let t := [0, 3, 2, 5, 0, 3, 5, 1, 4, 6, 2, 4].getD (D.m - 1) 0
  (y + y / 4 + y / 400 + t + D.d - y / 100) % 7

def weekdayOf (D : RDate) : Weekday := weekdayOfIdx (weekdayNum D)

def dayOfYear (D : RDate) : Nat :=
  (List.range (D.m - 1)).foldl (fun a i => a + daysInMonth D.y (i + 1)) 0 + D.d

def isoDayOfWeek (D : RDate) : Nat :=
  let w := weekdayNum D
  if w = 0 then 7 else w

def janFirstAnchor (y : Nat) : Nat := (y + y / 4 + y / 400 - y / 100) % 7

def isoWeeksInYear (y : Nat) : Nat :=
  if janFirstAnchor y = 4 ∨ janFirstAnchor (y - 1) = 3 then 53 else 52

/-- ISO week-year and week-number of a date. -/
def isoWeekFields (D : RDate) : Nat × Nat :=
  let wk := (dayOfYear D + 10 - isoDayOfWeek D) / 7
  if wk = 0 then (D.y - 1, isoWeeksInYear (D.y - 1))
  else if isoWeeksInYear D.y < wk then (D.y + 1, 1)
  else (D.y, wk)

def quarterOf (D : RDate) : Nat := (D.m - 1) / 3 + 1

/-- Modelled from the spec: moment's `.year(y)` field setter (keeps month and
    day, clamping the day to the target month's length). -/
def setYear (D : RDate) (y : Nat) : RDate :=
  ⟨y, D.m, min D.d (daysInMonth y D.m)⟩

/-- Modelled from the spec: moment's `.week(w)` setter, which moves the date
    by whole weeks so that its week-of-year becomes `w` (week numbering is
    external to this repository; the ISO numbering above is used). -/
def setWeek (D : RDate) (w : Nat) : RDate :=
  let cw := (isoWeekFields D).2
  if cw ≤ w then addDays D (7 * (w - cw)) else subDays D (7 * (cw - w))

/-- Modelled from the spec: moment's `.quarter(q)` setter (moves by whole
    months, keeping the day-of-month clamped). -/
def setQuarter (D : RDate) (q : Nat) : RDate :=
  let cq := quarterOf D
  if cq ≤ q then addMonths D (3 * (q - cq)) else subMonths D (3 * (cq - q))

/-! ## Periodic note types and link targets (`periodic-note-detector.ts`,
`natural-language-parser.ts`) -/

inductive PType | daily | weekly | monthly | quarterly | yearly
deriving DecidableEq

structure LinkTarget where
  ptype : PType
  date : RDate
deriving DecidableEq

/-! ## Regex-style scanning combinators

JavaScript `String.prototype.match` with an unanchored pattern finds the
leftmost position at which the pattern matches.  `scanL f l` tries `f` at
every suffix of `l`, leftmost first, exactly mirroring that search. -/

def scanL (f : List Char → Option α) : List Char → Option α
  | [] => f []
  | c :: t =>
    match f (c :: t) with
    | some a => some a
    | none => scanL f (c :: t).tail

/-- Consume exactly `k` decimal digits (the regex `\d{k}`). -/
def eatDigitsK : Nat → List Char → Option (List Char × List Char)
  | 0, l => some ([], l)
  | _ + 1, [] => none
  | k + 1, c :: t =>
    if c.isDigit then (eatDigitsK k t).map (fun p => (c :: p.1, p.2)) else none

/-- Consume one expected character (a case-sensitive regex literal). -/
def eatCh (x : Char) : List Char → Option (List Char)
  | [] => none
  | c :: t => if c = x then some t else none

/-- Consume a literal case-insensitively (`pat` given in lower case),
    as under the regex `i` flag on ASCII. -/
def eatStrCI : List Char → List Char → Option (List Char)
  | [], l => some l
  | _ :: _, [] => none
  | p :: ps, c :: t => if lowerChar c = p then eatStrCI ps t else none

/-- Like `eatStrCI` but also returns the consumed text in original casing
    (regexes capture the original text). -/
def eatCICap : List Char → List Char → Option (List Char × List Char)
  | [], l => some ([], l)
  | _ :: _, [] => none
  | p :: ps, c :: t =>
    if lowerChar c = p then (eatCICap ps t).map (fun q => (c :: q.1, q.2)) else none

/-- The regex `\s+` (greedy; every continuation in these patterns starts
    with a non-whitespace character, so greediness never needs backtracking). -/
def eatWs1 : List Char → Option (List Char)
  | [] => none
  | c :: t => if isWsChar c then some (t.dropWhile isWsChar) else none

/-! ## The phrase resolver (`NaturalLanguageParser`, `natural-language-parser.ts`) -/

/-- Modelled from the moment-format invocations in
    `extractDateFromFilename`: the regex `(\d{4})-(\d{2})-(\d{2})` followed
    by a `YYYY-MM-DD` parse of the captures. -/
def tryDaily (l : List Char) : Option RDate := do
  let (ys, r1) ← eatDigitsK 4 l
  let r2 ← eatCh '-' r1
  let (ms, r3) ← eatDigitsK 2 r2
  let r4 ← eatCh '-' r3
  let (ds, _) ← eatDigitsK 2 r4
  return ⟨parseDigits ys, parseDigits ms, parseDigits ds⟩

/-- The regex `(\d{4})-W(\d{2})` (case-sensitive, no flags). -/
def tryWeeklyName (l : List Char) : Option (Nat × Nat) := do
  let (ys, r1) ← eatDigitsK 4 l
  let r2 ← eatCh '-' r1
  let r3 ← eatCh 'W' r2
  let (ws, _) ← eatDigitsK 2 r3
  return (parseDigits ys, parseDigits ws)

/-- The regex `(\d{4})-(\d{2})` followed by a `YYYY-MM-01` parse. -/
def tryMonthly (l : List Char) : Option RDate := do
  let (ys, r1) ← eatDigitsK 4 l
  let r2 ← eatCh '-' r1
  let (ms, _) ← eatDigitsK 2 r2
  return ⟨parseDigits ys, parseDigits ms, 1⟩

/-- The regex `(\d{4})-Q([1-4])`. -/
def tryQuarterlyName (l : List Char) : Option (Nat × Nat) := do
  let (ys, r1) ← eatDigitsK 4 l
  let r2 ← eatCh '-' r1
  let r3 ← eatCh 'Q' r2
  match r3 with
  | c :: _ =>
    if '1' ≤ c ∧ c ≤ '4' then return (parseDigits ys, c.toNat - 48) else none
  | [] => none

/-- The regex `(\d{4})`. -/
def tryYearly (l : List Char) : Option RDate := do
  let (ys, _) ← eatDigitsK 4 l
  return ⟨parseDigits ys, 1, 1⟩

/-- Embeds `NaturalLanguageParser.extractDateFromFilename`.  The weekly and
    quarterly branches build their date from `moment()` (wall-clock now), so
    the embedding takes `now` explicitly. -/
def extractDateFromFilename (filename : List Char) (t : PType) (now : RDate) : Option RDate :=
  match t with
  | .daily => scanL tryDaily filename
  | .weekly => (scanL tryWeeklyName filename).map (fun p => setWeek (setYear now p.1) p.2)
  | .monthly => scanL tryMonthly filename
  | .quarterly => (scanL tryQuarterlyName filename).map (fun p => setQuarter (setYear now p.1) p.2)
  | .yearly => scanL tryYearly filename

/-- Embeds `NaturalLanguageParser.normalizeUnit` (lower-cases its argument; the
    unreachable default returns `days`, kept from the source). -/
def normalizeUnit (u : List Char) : MUnit :=
  let lu := lowerL u
  if lu = (r"day").data ∨ lu = (r"days").data then .days
  else if lu = (r"week").data ∨ lu = (r"weeks").data then .weeks
  else if lu = (r"month").data ∨ lu = (r"months").data then .months
  else if lu = (r"quarter").data ∨ lu = (r"quarters").data then .quarters
  else if lu = (r"year").data ∨ lu = (r"years").data then .years
  else .days

/-- Embeds `NaturalLanguageParser.unitToType`. -/
def unitToType (u : MUnit) (ctx : PType) : Option PType :=
  match u with
  | .days => if ctx = .daily then some .daily else none
  | .weeks => some .weekly
  | .months => some .monthly
  | .quarters => some .quarterly
  | .years => some .yearly

/-- The static-phrase `switch` of `NaturalLanguageParser.parsePhrase`
    (lines 35-127), on the lower-cased trimmed phrase. -/
def staticResolve (lp : List Char) (ctx : PType) (ref : RDate) : Option LinkTarget :=
  if lp = (r"yesterday").data then
    if ctx = .daily then some ⟨.daily, subDays ref 1⟩ else none
  else if lp = (r"tomorrow").data then
    if ctx = .daily then some ⟨.daily, addDays ref 1⟩ else none
  else if lp = (r"last week").data then
    if ctx = .weekly ∨ ctx = .daily then some ⟨.weekly, subDays ref 7⟩ else none
  else if lp = (r"next week").data then
    if ctx = .weekly ∨ ctx = .daily then some ⟨.weekly, addDays ref 7⟩ else none
  else if lp = (r"this week").data then
    if ctx = .daily then some ⟨.weekly, ref⟩ else none
  else if lp = (r"last month").data then
    if ctx = .monthly ∨ ctx = .weekly ∨ ctx = .daily then
      some ⟨.monthly, subMonths ref 1⟩ else none
  else if lp = (r"next month").data then
    if ctx = .monthly ∨ ctx = .weekly ∨ ctx = .daily then
      some ⟨.monthly, addMonths ref 1⟩ else none
  else if lp = (r"this month").data then
    if ctx = .weekly ∨ ctx = .daily then some ⟨.monthly, ref⟩ else none
  else if lp = (r"last quarter").data then
    if ctx = .quarterly ∨ ctx = .monthly ∨ ctx = .weekly ∨ ctx = .daily then
      some ⟨.quarterly, subMonths ref 3⟩ else none
  else if lp = (r"next quarter").data then
    if ctx = .quarterly ∨ ctx = .monthly ∨ ctx = .weekly ∨ ctx = .daily then
      some ⟨.quarterly, addMonths ref 3⟩ else none
  else if lp = (r"this quarter").data then
    if ctx = .monthly ∨ ctx = .weekly ∨ ctx = .daily then
      some ⟨.quarterly, ref⟩ else none
  else if lp = (r"last year").data then
    if ctx = .yearly ∨ ctx = .quarterly ∨ ctx = .monthly ∨ ctx = .weekly ∨ ctx = .daily then
      some ⟨.yearly, subYears ref 1⟩ else none
  else if lp = (r"next year").data then
    if ctx = .yearly ∨ ctx = .quarterly ∨ ctx = .monthly ∨ ctx = .weekly ∨ ctx = .daily then
      some ⟨.yearly, addYears ref 1⟩ else none
  else if lp = (r"this year").data then
    if ctx = .quarterly ∨ ctx = .monthly ∨ ctx = .weekly ∨ ctx = .daily then
      some ⟨.yearly, ref⟩ else none
  else none

/-- One unit alternative of `(days?|weeks?|months?|quarters?|years?)`:
    the base word case-insensitively, then an optional `s`, capturing the
    original text.  (Backtracking out of the greedy `s?` can never succeed
    in the surrounding patterns, since the continuation is `\s+` or the
    pattern end, and `s` is not whitespace.) -/
def eatUnitWord (w : List Char) (l : List Char) : Option (List Char × List Char) :=
  (eatCICap w l).map (fun q =>
    match q.2 with
    | c :: t => if lowerChar c = 's' then (q.1 ++ [c], t) else (q.1, q.2)
    | [] => (q.1, []))

/-- The full unit alternation, leftmost alternative first (the five base
    words start with distinct letters, so order cannot matter). -/
def eatUnitCap (l : List Char) : Option (List Char × List Char) :=
  eatUnitWord (r"day").data l <|> eatUnitWord (r"week").data l <|>
  eatUnitWord (r"month").data l <|> eatUnitWord (r"quarter").data l <|>
  eatUnitWord (r"year").data l

/-- Continuation of the `ago` pattern after the digits:
    `\s+(days?|...)\s+ago`, returning the unit capture. -/
def agoRest (r1 : List Char) : Option (List Char) := do
  let r2 ← eatWs1 r1
  let (cap, r3) ← eatUnitCap r2
  let r4 ← eatWs1 r3
  let _ ← eatStrCI (r"ago").data r4
  return cap

/-- One attempt of `(\d+)\s+(days?|weeks?|months?|quarters?|years?)\s+ago`
    at a fixed position (the greedy `\d+` never backtracks usefully, as the
    continuation `\s+` cannot start with a digit). -/
def tryAgo (l : List Char) : Option (List Char × List Char) :=
  let ds := l.takeWhile Char.isDigit
  if ds = [] then none
  else (agoRest (l.dropWhile Char.isDigit)).map (fun cap => (ds, cap))

/-- Continuation of the `in` pattern after its digits: `\s+(days?|...)`,
    returning the unit capture. -/
def inCont (t : List Char) : Option (List Char) := do
  let r3 ← eatWs1 t
  let (cap, _) ← eatUnitCap r3
  return cap

/-- Continuation of the `in` pattern after `in\s+`:
    `(\d+)\s+(days?|...)`, returning digits and unit capture. -/
def inRest (r2 : List Char) : Option (List Char × List Char) :=
  let ds := r2.takeWhile Char.isDigit
  if ds = [] then none
  else (inCont (r2.dropWhile Char.isDigit)).map (fun cap => (ds, cap))

/-- One attempt of `in\s+(\d+)\s+(days?|weeks?|months?|quarters?|years?)`. -/
def tryIn (l : List Char) : Option (List Char × List Char) := do
  let r1 ← eatStrCI (r"in").data l
  let r2 ← eatWs1 r1
  inRest r2

/-- Continuation of the `from now` pattern after the digits:
    `\s+(days?|...)\s+from\s+now`, returning the unit capture. -/
def fromNowRest (r1 : List Char) : Option (List Char) := do
  let r2 ← eatWs1 r1
  let (cap, r3) ← eatUnitCap r2
  let r4 ← eatWs1 r3
  let r5 ← eatStrCI (r"from").data r4
  let r6 ← eatWs1 r5
  let _ ← eatStrCI (r"now").data r6
  return cap

/-- One attempt of
    `(\d+)\s+(days?|weeks?|months?|quarters?|years?)\s+from\s+now`. -/
def tryFromNow (l : List Char) : Option (List Char × List Char) :=
  let ds := l.takeWhile Char.isDigit
  if ds = [] then none
  else (fromNowRest (l.dropWhile Char.isDigit)).map (fun cap => (ds, cap))

/-- The `fromNowMatch` branch of `parsePhrase` (lines 150-158): the target
    date is computed from wall-clock `now`, not the reference date. -/
def fromNowBranch (phrase : List Char) (ctx : PType) (now : RDate) : Option LinkTarget :=
  match scanL tryFromNow phrase with
  | some p =>
    let unit := normalizeUnit p.2
    match unitToType unit ctx with
    | some ty => some ⟨ty, addUnit now (parseDigits p.1) unit⟩
    | none => none
  | none => none

/-- The `inMatch` branch of `parsePhrase` (lines 140-148), falling through
    to the `fromNowMatch` branch when it does not produce a target. -/
def inBranch (phrase : List Char) (ctx : PType) (ref now : RDate) : Option LinkTarget :=
  match scanL tryIn phrase with
  | some p =>
    let unit := normalizeUnit p.2
    match unitToType unit ctx with
    | some ty => some ⟨ty, addUnit ref (parseDigits p.1) unit⟩
    | none => fromNowBranch phrase ctx now
  | none => fromNowBranch phrase ctx now

/-- The `agoMatch` branch of `parsePhrase` (lines 130-138), falling through
    to the later dynamic branches when it does not produce a target. -/
def agoBranch (phrase : List Char) (ctx : PType) (ref now : RDate) : Option LinkTarget :=
  match scanL tryAgo phrase with
  | some p =>
    let unit := normalizeUnit p.2
    match unitToType unit ctx with
    | some ty => some ⟨ty, subUnit ref (parseDigits p.1) unit⟩
    | none => inBranch phrase ctx ref now
  | none => inBranch phrase ctx ref now

/-- Embeds `NaturalLanguageParser.parsePhrase` (the three-argument resolver under
    `src/`; wall-clock `now` made explicit). -/
def parsePhrase (phrase : List Char) (ctx : PType) (basename : List Char) (now : RDate) :
    Option LinkTarget :=
  let ref := (extractDateFromFilename basename ctx now).getD now
  let lp := trimL (lowerL phrase)
  match staticResolve lp ctx ref with
  | some t => some t
  | none => agoBranch phrase ctx ref now

/-! ## The granularity detector (`PeriodicNoteDetector`, `periodic-note-detector.ts`)

Configured format patterns are handed by the source to `moment(name, format,
true)` for strict parsing; `moment` is external to this repository, so the
token matcher below is modelled from the spec: "compile its format pattern
into a matcher (a parser/regex derived from the token vocabulary: 4-digit
year, 2-digit month/day, week-year/week-number tokens, literal-bracket
segments, quarter digit 1-4, ...)" (spec §4.2). -/

inductive FToken
  | y4 | m2 | d2 | wy4 | wk2 | q1 | slash | lit (s : List Char)
deriving DecidableEq

def padZeros (w : Nat) (l : List Char) : List Char :=
  List.replicate (w - l.length) '0' ++ l

def renderNat (w v : Nat) : List Char := padZeros w (natDigits v)

/-- Modelled from the spec: moment-style rendering of one format token. -/
def renderTok (D : RDate) : FToken → List Char
  | .y4 => renderNat 4 D.y
  | .m2 => renderNat 2 D.m
  | .d2 => renderNat 2 D.d
  | .wy4 => renderNat 4 (isoWeekFields D).1
  | .wk2 => renderNat 2 (isoWeekFields D).2
  | .q1 => renderNat 1 (quarterOf D)
  | .slash => ['/']
  | .lit s => s

def formatDate (toks : List FToken) (D : RDate) : List Char :=
  (toks.map (renderTok D)).flatten

/-- Case-sensitive literal segment of a format pattern. -/
def eatLit : List Char → List Char → Option (List Char)
  | [], l => some l
  | _ :: _, [] => none
  | p :: ps, c :: t => if c = p then eatLit ps t else none

/-- Modelled from the spec: strict matching of one token (lexeme shape plus
    field range, as in moment's strict parsing). -/
def eatTok (t : FToken) (l : List Char) : Option (List Char) :=
  match t with
  | .y4 => (eatDigitsK 4 l).map (fun p => p.2)
  | .wy4 => (eatDigitsK 4 l).map (fun p => p.2)
  | .m2 => do
    let (ds, r) ← eatDigitsK 2 l
    if 1 ≤ parseDigits ds ∧ parseDigits ds ≤ 12 then some r else none
  | .d2 => do
    let (ds, r) ← eatDigitsK 2 l
    if 1 ≤ parseDigits ds ∧ parseDigits ds ≤ 31 then some r else none
  | .wk2 => do
    let (ds, r) ← eatDigitsK 2 l
    if 1 ≤ parseDigits ds ∧ parseDigits ds ≤ 53 then some r else none
  | .q1 =>
    match l with
    | c :: rest => if '1' ≤ c ∧ c ≤ '4' then some rest else none
    | [] => none
  | .slash => eatCh '/' l
  | .lit s => eatLit s l

/-- Strict whole-string matching of a token pattern (moment's
    `moment(str, format, true).isValid()`). -/
def matchToks : List FToken → List Char → Bool
  | [], [] => true
  | [], _ :: _ => false
  | t :: ts, l =>
    match eatTok t l with
    | some r => matchToks ts r
    | none => false

/-- A date is encodable by a token when its rendering lies in the lexeme
    accepted back by `eatTok` (and literal segments carry no path
    separator, so that string-level and token-level slash handling agree). -/
def encodableTok (D : RDate) : FToken → Bool
  | .y4 => D.y ≤ 9999
  | .m2 => 1 ≤ D.m && D.m ≤ 12
  | .d2 => 1 ≤ D.d && D.d ≤ 31
  | .wy4 => (isoWeekFields D).1 ≤ 9999
  | .wk2 => 1 ≤ (isoWeekFields D).2 && (isoWeekFields D).2 ≤ 53
  | .q1 => 1 ≤ quarterOf D && quarterOf D ≤ 4
  | .slash => true
  | .lit s => !(s.contains '/')

def encodable (toks : List FToken) (D : RDate) : Bool :=
  toks.all (encodableTok D)

structure PConfig where
  ctype : PType
  fmt : List FToken
  folder : List Char
deriving DecidableEq

def hasSlashTok : FToken → Bool
  | .slash => true
  | .lit s => s.contains '/'
  | _ => false

/-- Embeds `config.format.includes('/')`. -/
def fmtHasSlash (toks : List FToken) : Bool := toks.any hasSlashTok

/-- Embeds `fileName.replace(/\.md$/, '')`. -/
def stripMd (l : List Char) : List Char :=
  if ['d', 'm', '.'].isPrefixOf l.reverse then (l.reverse.drop 3).reverse else l

/-- Embeds `filePath.substring(0, filePath.lastIndexOf('/'))` (empty when there is
    no separator, as in JavaScript where `lastIndexOf` yields -1). -/
def dirOf (p : List Char) : List Char :=
  ((p.reverse.dropWhile (fun c => c != '/')).drop 1).reverse

/-- Embeds `PeriodicNoteDetector.matchesFolderStructure`. -/
def matchesFolderStructure (path : List Char) (cfg : PConfig) (strict : Bool) : Bool :=
  let parts := (stripMd path).splitOn '/'
  let n := (cfg.fmt.splitOn .slash).length
  if parts.length < n then false
  else
    let rel := parts.drop (parts.length - n)
    if matchToks cfg.fmt (List.intercalate ['/'] rel) then
      if strict ∧ cfg.folder ≠ [] then
        decide (List.intercalate ['/'] (parts.take (parts.length - n)) = cfg.folder)
      else true
    else false

/-- Embeds `PeriodicNoteDetector.matchesConfig` (first, authoritative variant, with
    the strict-folder option).  `isCore` tells whether `cfg` is the core
    daily-notes configuration (the source compares object identity); the
    folder string is taken already normalized to forward slashes. -/
def matchesConfig (name path : List Char) (cfg : PConfig) (isCore strict : Bool) : Bool :=
  if fmtHasSlash cfg.fmt ∧ isCore = false then matchesFolderStructure path cfg strict
  else
    if matchToks cfg.fmt (stripMd name) then
      if strict ∧ cfg.folder ≠ [] then cfg.folder.isPrefixOf (dirOf path)
      else true
    else false

structure DetectorState where
  coreDaily : Option PConfig
  periodic : List PConfig
  strictFolder : Bool

/-- The candidate list of `detectPeriodicType`: the core daily config (when
    present) first, then the periodic-notes configs in insertion order. -/
def candidates (s : DetectorState) : List (PConfig × Bool) :=
  (match s.coreDaily with
   | some c => [(c, true)]
   | none => []) ++ s.periodic.map (fun c => (c, false))

def detectLoop (name path : List Char) (strict : Bool) : List (PConfig × Bool) → Option PType
  | [] => none
  | cb :: rest =>
    if matchesConfig name path cb.1 cb.2 strict then some cb.1.ctype
    else detectLoop name path strict rest

def isShapeDaily : List Char → Bool
  | [a, b, c, d, h1, e, f, h2, g, k] =>
    [a, b, c, d, e, f, g, k].all Char.isDigit && h1 == '-' && h2 == '-'
  | _ => false

def isShapeWeekly : List Char → Bool
  | [a, b, c, d, h1, w, e, f] =>
    [a, b, c, d, e, f].all Char.isDigit && h1 == '-' && w == 'W'
  | _ => false

def isShapeMonthly : List Char → Bool
  | [a, b, c, d, h1, e, f] => [a, b, c, d, e, f].all Char.isDigit && h1 == '-'
  | _ => false

def isShapeQuarterly : List Char → Bool
  | [a, b, c, d, h1, q, e] => [a, b, c, d, e].all Char.isDigit && h1 == '-' && q == 'Q'
  | _ => false

def isShapeYearly : List Char → Bool
  | [a, b, c, d] => [a, b, c, d].all Char.isDigit
  | _ => false

/-- Embeds `PeriodicNoteDetector.detectCommonPatterns`: the fixed fallback table of
    anchored patterns, in source order. -/
def detectCommonPatterns (n : List Char) : Option PType :=
  if isShapeDaily n then some .daily
  else if isShapeWeekly n then some .weekly
  else if isShapeMonthly n then some .monthly
  else if isShapeQuarterly n then some .quarterly
  else if isShapeYearly n then some .yearly
  else none

/-- Embeds `PeriodicNoteDetector.detectPeriodicType`. -/
def detect (s : DetectorState) (name path : List Char) : Option PType :=
  match detectLoop name path s.strictFolder (candidates s) with
  | some t => some t
  | none => detectCommonPatterns name

/-! ## Configuration aggregation (`loadConfigurations`, `getConfig`,
`getAllEnabledTypes`)

The two external configuration sources (core Daily Notes and the Periodic
Notes plugin, in its calendar-set or legacy shape) are modelled as optional
records; a source that is absent, not loaded, or lacks an entry contributes
no configuration, mirroring the source's swallowed lookup failures. -/

def fmtDailyDefault : List FToken := [.y4, .lit ['-'], .m2, .lit ['-'], .d2]

def fmtWeeklyDefault : List FToken := [.wy4, .lit ['-', 'W'], .wk2]

def fmtMonthlyDefault : List FToken := [.y4, .lit ['-'], .m2]

def fmtQuarterlyDefault : List FToken := [.y4, .lit ['-', 'Q'], .q1]

def fmtYearlyDefault : List FToken := [.y4]

structure CoreDailyOptions where
  format : Option (List FToken)
  folder : Option (List Char)

structure CoreDailySrc where
  enabled : Bool
  options : Option CoreDailyOptions

/-- Core Daily Notes loading (`loadConfigurations`, first block). -/
def loadCore (src : Option CoreDailySrc) : Option PConfig :=
  match src with
  | some s =>
    if s.enabled then
      match s.options with
      | some o => some ⟨.daily, o.format.getD fmtDailyDefault, o.folder.getD []⟩
      | none => none
    else none
  | none => none

structure CSEntry where
  enabled : Bool
  folder : List Char
  fmt : List FToken

structure LegacyEntry where
  enabled : Bool
  format : Option (List FToken)
  folder : Option (List Char)

structure PNSrc where
  loaded : Bool
  calendarSet : Option (PType → Option CSEntry)
  legacy : PType → Option LegacyEntry

def legacyDefaults : List (PType × List FToken) :=
  [(.daily, fmtDailyDefault), (.weekly, fmtWeeklyDefault), (.monthly, fmtMonthlyDefault),
   (.quarterly, fmtQuarterlyDefault), (.yearly, fmtYearlyDefault)]

/-- Periodic Notes plugin loading (`loadConfigurations`, second block):
    calendar-set shape when present, else the legacy shape, each granularity
    in the fixed order daily..yearly. -/
def loadPN (src : Option PNSrc) : List PConfig :=
  match src with
  | none => []
  | some s =>
    if s.loaded then
      match s.calendarSet with
      | some cs =>
        ([.daily, .weekly, .monthly, .quarterly, .yearly] : List PType).filterMap (fun g =>
          match cs g with
          | some e => if e.enabled then some ⟨g, e.fmt, e.folder⟩ else none
          | none => none)
      | none =>
        legacyDefaults.filterMap (fun gd =>
          match s.legacy gd.1 with
          | some e => if e.enabled then some ⟨gd.1, e.format.getD gd.2, e.folder.getD []⟩ else none
          | none => none)
    else []

/-- The detector constructor plus `loadConfigurations`. -/
def loadConfigs (core : Option CoreDailySrc) (pn : Option PNSrc) (strict : Bool) :
    DetectorState :=
  ⟨loadCore core, loadPN pn, strict⟩

/-- Embeds `PeriodicNoteDetector.getConfig`. -/
def getConfig (s : DetectorState) (t : PType) : Option PConfig :=
  match s.periodic.find? (fun c => c.ctype == t) with
  | some c => some c
  | none => if t = .daily then s.coreDaily else none

/-- Embeds `PeriodicNoteDetector.getAllEnabledTypes` (`coreEnabled` models the
    repeated probe of the core plugin's enabled flag). -/
def getAllEnabledTypes (s : DetectorState) (coreEnabled : Bool) : List PType :=
  (if coreEnabled ∧ s.coreDaily.isSome then [PType.daily] else []) ++
  s.periodic.filterMap (fun c =>
    if c.ctype ≠ .daily ∨ s.coreDaily = none then some c.ctype else none)

/-! ## The phrase recognizer (`findNaturalLanguagePhrase`, `main.ts`)

Every pattern in the source has the shape `core([\s.,;:!?"']*)$` matched
against `line.substring(0, cursor)`: a core grammar, then a greedy run of
delimiter characters reaching the end of the stored prefix.  A match at
position `i` therefore spans from `i` to the end of the prefix. -/

def isDelim (c : Char) : Bool :=
  isWsChar c || c == '.' || c == ',' || c == ';' || c == ':' ||
  c == '!' || c == '?' || c == '"' || c == '\''

/-- The regex word-character class `\w` (`[A-Za-z0-9_]`), for `\b`. -/
def isWordChar (c : Char) : Bool := c.isAlpha || c.isDigit || c == '_'

structure PhraseMatch where
  phrase : List Char
  trailing : List Char
  startOff : Nat
  endOff : Nat
deriving DecidableEq

/-- Embeds `fullMatch.replace(/[\s.,;:!?"']+$/, '')`. -/
def stripDelimSuffix (l : List Char) : List Char :=
  (l.reverse.dropWhile isDelim).reverse

/-- One attempt of an end-anchored pattern at position `i` (suffix `l` of
    the before-cursor prefix).  `bOk` says whether a word boundary holds at
    `i`; it is only consulted when the pattern begins with `\b` (`useWb`). -/
def attemptAt (coreEat : List Char → Option (List Char)) (useWb : Bool)
    (l : List Char) (i : Nat) (bOk : Bool) : Option PhraseMatch :=
  if !useWb || bOk then
    match coreEat l with
    | some r => if r.all isDelim then some ⟨stripDelimSuffix l, r, i, i + l.length⟩ else none
    | none => none
  else none

/-- Leftmost-position regex search over the before-cursor prefix. -/
def searchCore (coreEat : List Char → Option (List Char)) (useWb : Bool) :
    List Char → Nat → Bool → Option PhraseMatch
  | [], i, bOk => attemptAt coreEat useWb [] i bOk
  | c :: t, i, bOk =>
    match attemptAt coreEat useWb (c :: t) i bOk with
    | some m => some m
    | none => searchCore coreEat useWb t (i + 1) (!isWordChar c)

def searchPat (coreEat : List Char → Option (List Char)) (useWb : Bool)
    (before : List Char) : Option PhraseMatch :=
  searchCore coreEat useWb before 0 true

/-- The static phrase table of `findNaturalLanguagePhrase`, in source order. -/
def staticPhrases : List (List Char) :=
  [(r"yesterday").data, (r"tomorrow").data, (r"last week").data, (r"next week").data,
   (r"this week").data, (r"last month").data, (r"next month").data, (r"this month").data,
   (r"last quarter").data, (r"previous quarter").data, (r"next quarter").data,
   (r"this quarter").data, (r"last year").data, (r"previous year").data,
   (r"next year").data, (r"this year").data]

def writtenNumbers : List (List Char) :=
  [(r"one").data, (r"two").data, (r"three").data, (r"four").data, (r"five").data,
   (r"six").data, (r"seven").data, (r"eight").data, (r"nine").data, (r"ten").data,
   (r"eleven").data, (r"twelve").data, (r"thirteen").data, (r"fourteen").data,
   (r"fifteen").data, (r"sixteen").data, (r"seventeen").data, (r"eighteen").data,
   (r"nineteen").data, (r"twenty").data, (r"thirty").data, (r"forty").data,
   (r"fifty").data, (r"sixty").data, (r"seventy").data, (r"eighty").data,
   (r"ninety").data]

/-- All rests reachable by consuming one `numberPattern` alternative, in
    alternation order; the caller tries its continuation on each in turn,
    mirroring regex backtracking into the alternation (needed because e.g.
    `seven` is listed before, and is a prefix of, `seventeen`). -/
def numAlts (ew : Bool) (l : List Char) : List (List Char) :=
  (let ds := l.takeWhile Char.isDigit
   if ds = [] then [] else [l.dropWhile Char.isDigit]) ++
  (if ew then writtenNumbers.filterMap (fun w => eatStrCI w l) else [])

def weekdayWords : List (List Char) :=
  [(r"sunday").data, (r"monday").data, (r"tuesday").data, (r"wednesday").data,
   (r"thursday").data, (r"friday").data, (r"saturday").data]

def eatWeekdayW (l : List Char) : Option (List Char) :=
  weekdayWords.findSome? (fun w => eatStrCI w l)

/-- Core of `numberPattern\s+unitPattern\s+ago`. -/
def coreAgoD (ew : Bool) (l : List Char) : Option (List Char) :=
  (numAlts ew l).findSome? (fun r1 => do
    let r2 ← eatWs1 r1
    let (_, r3) ← eatUnitCap r2
    let r4 ← eatWs1 r3
    eatStrCI (r"ago").data r4)

/-- Core of `in\s+numberPattern\s+unitPattern`. -/
def coreInD (ew : Bool) (l : List Char) : Option (List Char) := do
  let r1 ← eatStrCI (r"in").data l
  let r2 ← eatWs1 r1
  (numAlts ew r2).findSome? (fun r3 => do
    let r4 ← eatWs1 r3
    let (_, r5) ← eatUnitCap r4
    return r5)

/-- Core of `numberPattern\s+unitPattern\s+from\s+now`. -/
def coreFromNowD (ew : Bool) (l : List Char) : Option (List Char) :=
  (numAlts ew l).findSome? (fun r1 => do
    let r2 ← eatWs1 r1
    let (_, r3) ← eatUnitCap r2
    let r4 ← eatWs1 r3
    let r5 ← eatStrCI (r"from").data r4
    let r6 ← eatWs1 r5
    eatStrCI (r"now").data r6)

/-- Core of `(next|last)\s+weekdayPattern`. -/
def coreNextLastWd (l : List Char) : Option (List Char) :=
  match (eatStrCI (r"next").data l).orElse (fun _ => eatStrCI (r"last").data l) with
  | some r1 => do
    let r2 ← eatWs1 r1
    eatWeekdayW r2
  | none => none

/-- Core of `numberPattern\s+weekdayPattern\s+(from\s+now|ago)`. -/
def coreCountWd (ew : Bool) (l : List Char) : Option (List Char) :=
  (numAlts ew l).findSome? (fun r1 => do
    let r2 ← eatWs1 r1
    let r3 ← eatWeekdayW r2
    let r4 ← eatWs1 r3
    (do
      let r5 ← eatStrCI (r"from").data r4
      let r6 ← eatWs1 r5
      eatStrCI (r"now").data r6).orElse (fun _ => eatStrCI (r"ago").data r4))

/-- Embeds `PeriodicLinksPlugin.findNaturalLanguagePhrase` (`main.ts` 115-173):
    static phrases first (with `\b`), then the five dynamic patterns in
    source order (no `\b`), all under the natural-language toggle. -/
def findPhrase (line : List Char) (cursor : Nat) (enableNL ew : Bool) : Option PhraseMatch :=
  let before := line.take cursor
  if enableNL then
    match staticPhrases.findSome? (fun p => searchPat (eatStrCI p) true before) with
    | some m => some m
    | none =>
      ([coreAgoD ew, coreInD ew, coreFromNowD ew, coreNextLastWd, coreCountWd ew]).findSome?
        (fun core => searchPat core false before)
  else none

/-! ## The scope-aware resolver, modelled from the spec

Modelled from the spec: `main.ts` invokes a six-argument
`parsePhrase(phrase, currentType, file, enableWrittenNumbers,
workAcrossAllPeriodicNotes, workEverywhere)`; the resolver carrying the
scope policy, coarseness-ladder gating and weekday grammar of spec §4.4 is
not among the sources under `src/`, so it is modelled here from the spec's
words (scope policy, gating rule, static table offsets, weekday occurrence
search). -/

inductive Scope | sameType | allPeriodic | everywhere
deriving DecidableEq

def ladderIdx : PType → Nat
  | .daily => 0 | .weekly => 1 | .monthly => 2 | .quarterly => 3 | .yearly => 4

/-- Modelled from the spec: "a requested target granularity G is permitted
    when G is at or coarser than context's granularity on the ladder
    {day < week < month < quarter < year}, OR scope is not `current-type`,
    OR context is none" (spec §4.4). -/
def allowedTarget (g : PType) (ctx : Option PType) (scope : Scope) : Bool :=
  match scope, ctx with
  | .sameType, some c => ladderIdx c ≤ ladderIdx g
  | .sameType, none => true
  | .allPeriodic, _ => true
  | .everywhere, _ => true

def wdName : Weekday → List Char
  | .sunday => (r"sunday").data
  | .monday => (r"monday").data
  | .tuesday => (r"tuesday").data
  | .wednesday => (r"wednesday").data
  | .thursday => (r"thursday").data
  | .friday => (r"friday").data
  | .saturday => (r"saturday").data

def wdTable : List (Weekday × List Char) :=
  [(.sunday, (r"sunday").data), (.monday, (r"monday").data), (.tuesday, (r"tuesday").data),
   (.wednesday, (r"wednesday").data), (.thursday, (r"thursday").data),
   (.friday, (r"friday").data), (.saturday, (r"saturday").data)]

/-- Modelled from the spec: forward weekday occurrence search — "if the
    target weekday equals the reference day, the match rolls to the next
    week rather than today" (spec §4.4). -/
def nextOccurrence (R : RDate) (w : Weekday) : RDate :=
  let d := (7 + w.idx - (weekdayOf R).idx) % 7
  addDays R (if d = 0 then 7 else d)

/-- Modelled from the spec: backward weekday occurrence search, rolling to
    the previous week when the weekdays coincide. -/
def prevOccurrence (R : RDate) (w : Weekday) : RDate :=
  let d := (7 + (weekdayOf R).idx - w.idx) % 7
  subDays R (if d = 0 then 7 else d)

def matchWdEnd (l : List Char) : Option Weekday := do
  let r ← eatWs1 l
  wdTable.findSome? (fun p =>
    match eatStrCI p.2 r with
    | some [] => some p.1
    | _ => none)

/-- Recognize `next <weekday>` / `last <weekday>` exactly. -/
def parseWdPhrase (phrase : List Char) : Option (Bool × Weekday) :=
  match eatStrCI (r"next").data phrase with
  | some r => (matchWdEnd r).map (fun w => (true, w))
  | none =>
    match eatStrCI (r"last").data phrase with
    | some r => (matchWdEnd r).map (fun w => (false, w))
    | none => none

/-- Modelled from the spec: the scope-aware resolver of spec §4.4 for the
    static phrase table ("each entry maps a phrase to a target granularity
    and a signed offset in ladder-appropriate units", gated by the ladder
    rule) and the `next`/`last` weekday grammar (granularity day, occurrence
    search never returning the reference day). -/
def resolveSpec (phrase : List Char) (ctx : Option PType) (anchor : RDate)
    (scope : Scope) : Option LinkTarget :=
  let gate := fun (t : LinkTarget) => if allowedTarget t.ptype ctx scope then some t else none
  if phrase = (r"yesterday").data then gate ⟨.daily, subDays anchor 1⟩
  else if phrase = (r"tomorrow").data then gate ⟨.daily, addDays anchor 1⟩
  else if phrase = (r"last week").data then gate ⟨.weekly, subDays anchor 7⟩
  else if phrase = (r"next week").data then gate ⟨.weekly, addDays anchor 7⟩
  else if phrase = (r"this week").data then gate ⟨.weekly, anchor⟩
  else if phrase = (r"last month").data then gate ⟨.monthly, subMonths anchor 1⟩
  else if phrase = (r"next month").data then gate ⟨.monthly, addMonths anchor 1⟩
  else if phrase = (r"this month").data then gate ⟨.monthly, anchor⟩
  else if phrase = (r"last quarter").data then gate ⟨.quarterly, subMonths anchor 3⟩
  else if phrase = (r"next quarter").data then gate ⟨.quarterly, addMonths anchor 3⟩
  else if phrase = (r"this quarter").data then gate ⟨.quarterly, anchor⟩
  else if phrase = (r"last year").data then gate ⟨.yearly, subYears anchor 1⟩
  else if phrase = (r"next year").data then gate ⟨.yearly, addYears anchor 1⟩
  else if phrase = (r"this year").data then gate ⟨.yearly, anchor⟩
  else
    match parseWdPhrase phrase with
    | some fw =>
      gate ⟨.daily, if fw.1 then nextOccurrence anchor fw.2 else prevOccurrence anchor fw.2⟩
    | none => none

/-! ## Helper lemmas: characters and digits -/

set_option maxHeartbeats 1600000

lemma isWs_lowerChar (c : Char) : isWsChar (lowerChar c) = isWsChar c := by
  unfold lowerChar; split <;> rfl

lemma isDigit_lowerChar (c : Char) : (lowerChar c).isDigit = c.isDigit := by
  unfold lowerChar; split <;> rfl

def upperChars : List Char :=
  ['A', 'B', 'C', 'D', 'E', 'F', 'G', 'H', 'I', 'J', 'K', 'L', 'M',
   'N', 'O', 'P', 'Q', 'R', 'S', 'T', 'U', 'V', 'W', 'X', 'Y', 'Z']

lemma lowerChar_eq_self_of_not_upper (c : Char) (h : c ∉ upperChars) :
    lowerChar c = c := by
  unfold lowerChar
  split <;> first | rfl | (exact absurd (by decide) h)

lemma lowerChar_idem (c : Char) : lowerChar (lowerChar c) = lowerChar c := by
  by_cases h : c ∈ upperChars
  · fin_cases h <;> rfl
  · rw [lowerChar_eq_self_of_not_upper c h, lowerChar_eq_self_of_not_upper c h]

def digitChars : List Char := ['0', '1', '2', '3', '4', '5', '6', '7', '8', '9']

lemma digitChar_mem (k : Nat) : digitChar k ∈ digitChars := by
  unfold digitChar; split <;> decide

lemma digitChars_isDigit {c : Char} (h : c ∈ digitChars) : c.isDigit = true := by
  fin_cases h <;> decide

lemma digitChars_not_ws {c : Char} (h : c ∈ digitChars) : isWsChar c = false := by
  fin_cases h <;> decide

lemma digitChars_lower {c : Char} (h : c ∈ digitChars) : lowerChar c = c := by
  fin_cases h <;> decide

lemma digitChars_not_i {c : Char} (h : c ∈ digitChars) : lowerChar c ≠ 'i' := by
  fin_cases h <;> decide

lemma natDigitsAux_fuel (f1 f2 n : Nat) (h1 : n < f1) (h2 : n < f2) :
    natDigitsAux f1 n = natDigitsAux f2 n := by
  induction f1 generalizing f2 n with
  | zero => omega
  | succ f ih =>
    cases f2 with
    | zero => omega
    | succ g =>
      simp only [natDigitsAux]
      by_cases h : n < 10
      · simp [h]
      · simp only [h, if_false]
        rw [ih g (n / 10) (by omega) (by omega)]

lemma natDigits_unfold (n : Nat) :
    natDigits n =
      if n < 10 then [digitChar n] else natDigits (n / 10) ++ [digitChar (n % 10)] := by
  unfold natDigits
  by_cases h : n < 10
  · simp [natDigitsAux, h]
  · simp only [natDigitsAux, h, if_false]
    rw [natDigitsAux_fuel n (n / 10 + 1) (n / 10) (by omega) (by omega)]
    rfl

lemma natDigits_mem (n : Nat) : ∀ c ∈ natDigits n, c ∈ digitChars := by
  induction n using Nat.strong_induction_on with
  | _ n ih =>
    rw [natDigits_unfold]
    by_cases h : n < 10
    · simp only [h, if_true, List.mem_singleton]
      intro c hc; subst hc; exact digitChar_mem n
    · simp only [h, if_false]
      intro c hc
      rcases List.mem_append.1 hc with h1 | h1
      · exact ih (n / 10) (by omega) c h1
      · simp only [List.mem_singleton] at h1; subst h1; exact digitChar_mem _

lemma natDigits_ne_nil (n : Nat) : natDigits n ≠ [] := by
  rw [natDigits_unfold]
  by_cases h : n < 10 <;> simp [h]

lemma parseDigits_append_one (l : List Char) (c : Char) :
    parseDigits (l ++ [c]) = 10 * parseDigits l + (c.toNat - 48) := by
  simp [parseDigits, List.foldl_append]

lemma digitChar_toNat (k : Nat) (h : k < 10) : (digitChar k).toNat - 48 = k := by
  interval_cases k <;> decide

lemma parseDigits_natDigits (n : Nat) : parseDigits (natDigits n) = n := by
  induction n using Nat.strong_induction_on with
  | _ n ih =>
    rw [natDigits_unfold]
    by_cases h : n < 10
    · simp only [h, if_true]
      have h2 : parseDigits [digitChar n] = (digitChar n).toNat - 48 := by
        simp [parseDigits]
      rw [h2, digitChar_toNat n h]
    · simp only [h, if_false]
      rw [parseDigits_append_one, ih (n / 10) (by omega), digitChar_toNat _ (by omega)]
      omega

lemma natDigits_length_le (n k : Nat) (h : n < 10 ^ k) (hk : 0 < k) :
    (natDigits n).length ≤ k := by
  induction k generalizing n with
  | zero => omega
  | succ k ih =>
    rw [natDigits_unfold]
    by_cases h10 : n < 10
    · simp [h10]
    · simp only [h10, if_false, List.length_append, List.length_singleton]
      have hk0 : 0 < k := by
        by_contra hc
        have hz : k = 0 := by omega
        subst hz; simp [pow_succ] at h; omega
      have hdiv : n / 10 < 10 ^ k := by
        apply Nat.div_lt_of_lt_mul
        rw [pow_succ] at h; omega
      have := ih (n / 10) hdiv hk0
      omega

/-! ## Helper lemmas: take/drop and scanning -/

lemma dropWhile_eq_self_of_head (p : Char → Bool) (l : List Char)
    (h : ∀ c, l.head? = some c → p c = false) : l.dropWhile p = l := by
  cases l with
  | nil => rfl
  | cons c t =>
    have := h c rfl
    simp [List.dropWhile, this]

lemma takeWhile_digits_append (ds t : List Char) (hd : ∀ c ∈ ds, c.isDigit = true)
    (ht : ∀ c, t.head? = some c → c.isDigit = false) :
    (ds ++ t).takeWhile Char.isDigit = ds ∧ (ds ++ t).dropWhile Char.isDigit = t := by
  induction ds with
  | nil =>
    constructor
    · cases t with
      | nil => rfl
      | cons c r => simp [List.takeWhile, ht c rfl]
    · simpa using dropWhile_eq_self_of_head _ t ht
  | cons c cs ih =>
    have hc := hd c (by simp)
    have ihr := ih (fun x hx => hd x (by simp [hx]))
    constructor
    · simp [List.takeWhile, hc, ihr.1]
    · simp [List.dropWhile, hc, ihr.2]

lemma scanL_nil (f : List Char → Option α) : scanL f [] = f [] := rfl

lemma scanL_cons (f : List Char → Option α) (c : Char) (t : List Char) :
    scanL f (c :: t) =
      match f (c :: t) with
      | some a => some a
      | none => scanL f t := rfl

lemma scanL_head_some (f : List Char → Option α) (l : List Char) (a : α)
    (h : f l = some a) : scanL f l = some a := by
  cases l with
  | nil => simpa [scanL_nil] using h
  | cons c t => simp [scanL_cons, h]

lemma scanL_append_none (f : List Char → Option α) (ds t : List Char)
    (h1 : ∀ ds', ds' <:+ ds → ds' ≠ [] → f (ds' ++ t) = none)
    (h2 : scanL f t = none) : scanL f (ds ++ t) = none := by
  induction ds with
  | nil => simpa using h2
  | cons c cs ih =>
    rw [List.cons_append, scanL_cons]
    have hc : f ((c :: cs) ++ t) = none := h1 (c :: cs) List.suffix_rfl (by simp)
    rw [List.cons_append] at hc
    rw [hc]
    exact ih (fun ds' hs hne => h1 ds' (hs.trans (List.suffix_cons c cs)) hne)

lemma trimL_id (l : List Char)
    (h1 : ∀ c, l.head? = some c → isWsChar c = false)
    (h2 : ∀ c, l.getLast? = some c → isWsChar c = false) : trimL l = l := by
  unfold trimL
  rw [dropWhile_eq_self_of_head _ l h1]
  rw [dropWhile_eq_self_of_head _ l.reverse (by
    intro c hc
    exact h2 c (by rwa [List.head?_reverse] at hc))]
  exact List.reverse_reverse l

/-! ## Dynamic duration phrases

`spell u pl` is the singular (`pl = false`) or plural (`pl = true`) spelling
of a unit; the three phrase builders produce exactly the dynamic duration
phrases of the spec's grammar. -/

def spell : MUnit → Bool → List Char
  | .days, false => (r"day").data
  | .days, true => (r"days").data
  | .weeks, false => (r"week").data
  | .weeks, true => (r"weeks").data
  | .months, false => (r"month").data
  | .months, true => (r"months").data
  | .quarters, false => (r"quarter").data
  | .quarters, true => (r"quarters").data
  | .years, false => (r"year").data
  | .years, true => (r"years").data

def agoTail (u : MUnit) (pl : Bool) : List Char := ' ' :: (spell u pl ++ (r" ago").data)

/-- The phrase `<count> <unit> ago`. -/
def agoPhraseL (n : Nat) (u : MUnit) (pl : Bool) : List Char := natDigits n ++ agoTail u pl

def inTail (u : MUnit) (pl : Bool) : List Char := ' ' :: spell u pl

/-- The phrase `in <count> <unit>`. -/
def inPhraseL (n : Nat) (u : MUnit) (pl : Bool) : List Char :=
  'i' :: 'n' :: ' ' :: (natDigits n ++ inTail u pl)

def fnTail (u : MUnit) (pl : Bool) : List Char :=
  ' ' :: (spell u pl ++ (r" from now").data)

/-- The phrase `<count> <unit> from now`. -/
def fromNowPhraseL (n : Nat) (u : MUnit) (pl : Bool) : List Char :=
  natDigits n ++ fnTail u pl

/-! ## Helper lemmas: the dynamic matchers on built phrases -/

lemma map_self (f : Char → Char) (l : List Char) (h : ∀ x ∈ l, f x = x) :
    l.map f = l := by
  induction l with
  | nil => rfl
  | cons c t ih => simp [h c (by simp), ih (fun x hx => h x (by simp [hx]))]

lemma takeWhile_nil_of_head (p : Char → Bool) (l : List Char)
    (h : ∀ c, l.head? = some c → p c = false) : l.takeWhile p = [] := by
  cases l with
  | nil => rfl
  | cons c t => simp [List.takeWhile, h c rfl]

lemma tryAgo_digits (ds t : List Char) (hne : ds ≠ [])
    (hd : ∀ c ∈ ds, c.isDigit = true)
    (ht : ∀ c, t.head? = some c → c.isDigit = false) :
    tryAgo (ds ++ t) = (agoRest t).map (fun cap => (ds, cap)) := by
  obtain ⟨h1, h2⟩ := takeWhile_digits_append ds t hd ht
  simp only [tryAgo, h1, h2]
  rw [if_neg hne]

lemma tryAgo_none_head (l : List Char)
    (h : ∀ c, l.head? = some c → c.isDigit = false) : tryAgo l = none := by
  simp only [tryAgo, takeWhile_nil_of_head Char.isDigit l h]
  rfl

lemma tryFromNow_digits (ds t : List Char) (hne : ds ≠ [])
    (hd : ∀ c ∈ ds, c.isDigit = true)
    (ht : ∀ c, t.head? = some c → c.isDigit = false) :
    tryFromNow (ds ++ t) = (fromNowRest t).map (fun cap => (ds, cap)) := by
  obtain ⟨h1, h2⟩ := takeWhile_digits_append ds t hd ht
  simp only [tryFromNow, h1, h2]
  rw [if_neg hne]

lemma tryFromNow_none_head (l : List Char)
    (h : ∀ c, l.head? = some c → c.isDigit = false) : tryFromNow l = none := by
  simp only [tryFromNow, takeWhile_nil_of_head Char.isDigit l h]
  rfl

lemma inRest_digits (ds t : List Char) (hne : ds ≠ [])
    (hd : ∀ c ∈ ds, c.isDigit = true)
    (ht : ∀ c, t.head? = some c → c.isDigit = false) :
    inRest (ds ++ t) = (inCont t).map (fun cap => (ds, cap)) := by
  obtain ⟨h1, h2⟩ := takeWhile_digits_append ds t hd ht
  simp only [inRest, h1, h2]
  rw [if_neg hne]

lemma tryIn_none_head (l : List Char)
    (h : ∀ c, l.head? = some c → lowerChar c ≠ 'i') : tryIn l = none := by
  cases l with
  | nil => rfl
  | cons c t =>
    have hc := h c rfl
    simp only [tryIn]
    have : eatStrCI (r"in").data (c :: t) = none := by
      show eatStrCI ('i' :: 'n' :: []) (c :: t) = none
      simp [eatStrCI, hc]
    rw [this]
    rfl

lemma scanL_tryIn_none (l : List Char) (h : ∀ c ∈ l, lowerChar c ≠ 'i') :
    scanL tryIn l = none := by
  induction l with
  | nil => rfl
  | cons c t ih =>
    rw [scanL_cons]
    rw [tryIn_none_head (c :: t) (by
      intro x hx
      have hcx : c = x := by simpa using hx
      exact hcx ▸ h c (by simp))]
    exact ih (fun x hx => h x (by simp [hx]))

/-! ## Per-spelling facts, discharged by evaluation -/

lemma normalizeUnit_spell (u : MUnit) (pl : Bool) : normalizeUnit (spell u pl) = u := by
  cases u <;> cases pl <;> decide

lemma spell_ne_nil (u : MUnit) (pl : Bool) : spell u pl ≠ [] := by
  cases u <;> cases pl <;> decide

lemma agoRest_agoTail (u : MUnit) (pl : Bool) :
    agoRest (agoTail u pl) = some (spell u pl) := by
  cases u <;> cases pl <;> decide

lemma fromNowRest_agoTail (u : MUnit) (pl : Bool) :
    fromNowRest (agoTail u pl) = none := by
  cases u <;> cases pl <;> decide

lemma scanFN_agoTail (u : MUnit) (pl : Bool) :
    scanL tryFromNow (agoTail u pl) = none := by
  cases u <;> cases pl <;> decide

lemma agoTail_no_i (u : MUnit) (pl : Bool) :
    ∀ c ∈ agoTail u pl, lowerChar c ≠ 'i' := by
  cases u <;> cases pl <;> decide

lemma lowerL_agoTail (u : MUnit) (pl : Bool) : lowerL (agoTail u pl) = agoTail u pl := by
  cases u <;> cases pl <;> decide

lemma getLast_agoTail (u : MUnit) (pl : Bool) :
    ∀ c, (agoTail u pl).getLast? = some c → isWsChar c = false := by
  cases u <;> cases pl <;> decide

lemma head_agoTail_nondigit (u : MUnit) (pl : Bool) :
    ∀ c, (agoTail u pl).head? = some c → c.isDigit = false := by
  cases u <;> cases pl <;> decide

lemma inCont_inTail (u : MUnit) (pl : Bool) :
    inCont (inTail u pl) = some (spell u pl) := by
  cases u <;> cases pl <;> decide

lemma agoRest_inTail (u : MUnit) (pl : Bool) : agoRest (inTail u pl) = none := by
  cases u <;> cases pl <;> decide

lemma fromNowRest_inTail (u : MUnit) (pl : Bool) : fromNowRest (inTail u pl) = none := by
  cases u <;> cases pl <;> decide

lemma scanAgo_inTail (u : MUnit) (pl : Bool) : scanL tryAgo (inTail u pl) = none := by
  cases u <;> cases pl <;> decide

lemma scanFN_inTail (u : MUnit) (pl : Bool) : scanL tryFromNow (inTail u pl) = none := by
  cases u <;> cases pl <;> decide

lemma lowerL_inTail (u : MUnit) (pl : Bool) : lowerL (inTail u pl) = inTail u pl := by
  cases u <;> cases pl <;> decide

lemma getLast_inTail (u : MUnit) (pl : Bool) :
    ∀ c, (inTail u pl).getLast? = some c → isWsChar c = false := by
  cases u <;> cases pl <;> decide

lemma head_inTail_nondigit (u : MUnit) (pl : Bool) :
    ∀ c, (inTail u pl).head? = some c → c.isDigit = false := by
  cases u <;> cases pl <;> decide

lemma fromNowRest_fnTail (u : MUnit) (pl : Bool) :
    fromNowRest (fnTail u pl) = some (spell u pl) := by
  cases u <;> cases pl <;> decide

lemma agoRest_fnTail (u : MUnit) (pl : Bool) : agoRest (fnTail u pl) = none := by
  cases u <;> cases pl <;> decide

lemma scanAgo_fnTail (u : MUnit) (pl : Bool) : scanL tryAgo (fnTail u pl) = none := by
  cases u <;> cases pl <;> decide

lemma fnTail_no_i (u : MUnit) (pl : Bool) : ∀ c ∈ fnTail u pl, lowerChar c ≠ 'i' := by
  cases u <;> cases pl <;> decide

lemma lowerL_fnTail (u : MUnit) (pl : Bool) : lowerL (fnTail u pl) = fnTail u pl := by
  cases u <;> cases pl <;> decide

lemma getLast_fnTail (u : MUnit) (pl : Bool) :
    ∀ c, (fnTail u pl).getLast? = some c → isWsChar c = false := by
  cases u <;> cases pl <;> decide

lemma head_fnTail_nondigit (u : MUnit) (pl : Bool) :
    ∀ c, (fnTail u pl).head? = some c → c.isDigit = false := by
  cases u <;> cases pl <;> decide

/-! ## Static-switch misses -/

lemma staticResolve_digit_head (c : Char) (hc : c ∈ digitChars) (rest : List Char)
    (ctx : PType) (ref : RDate) : staticResolve (c :: rest) ctx ref = none := by
  fin_cases hc <;> simp [staticResolve]

lemma staticResolve_i_head (rest : List Char) (ctx : PType) (ref : RDate) :
    staticResolve ('i' :: rest) ctx ref = none := by
  simp [staticResolve]

/-! ## Master evaluation lemmas for the three dynamic-duration branches -/

lemma parsePhrase_agoPhrase (n : Nat) (u : MUnit) (pl : Bool) (ctx : PType)
    (b : List Char) (now : RDate) :
    parsePhrase (agoPhraseL n u pl) ctx b now =
      match unitToType u ctx with
      | some ty =>
        some ⟨ty, subUnit ((extractDateFromFilename b ctx now).getD now) n u⟩
      | none => none := by
  obtain ⟨c, cs, hds⟩ : ∃ c cs, natDigits n = c :: cs := by
    cases hn : natDigits n with
    | nil => exact absurd hn (natDigits_ne_nil n)
    | cons c cs => exact ⟨c, cs, rfl⟩
  have hsub : ∀ x ∈ natDigits n, x ∈ digitChars := natDigits_mem n
  have hdig : ∀ x ∈ natDigits n, x.isDigit = true := fun x hx => digitChars_isDigit (hsub x hx)
  have hcmem : c ∈ digitChars := hsub c (by rw [hds]; simp)
  have htailne : agoTail u pl ≠ [] := by simp [agoTail]
  have htrim : trimL (agoPhraseL n u pl) = agoPhraseL n u pl := by
    apply trimL_id
    · intro x hx
      rw [agoPhraseL, hds, List.cons_append, List.head?_cons] at hx
      have hcx : c = x := by simpa using hx
      exact hcx ▸ digitChars_not_ws hcmem
    · intro x hx
      rw [agoPhraseL, List.getLast?_append_of_ne_nil _ htailne] at hx
      exact getLast_agoTail u pl x hx
  have hlower : lowerL (agoPhraseL n u pl) = agoPhraseL n u pl := by
    rw [agoPhraseL, lowerL, List.map_append]
    rw [map_self lowerChar (natDigits n) (fun x hx => digitChars_lower (hsub x hx))]
    rw [show (agoTail u pl).map lowerChar = agoTail u pl from lowerL_agoTail u pl]
  have hstatic : ∀ ref,
      staticResolve (agoPhraseL n u pl) ctx ref = none := by
    intro ref
    rw [agoPhraseL, hds, List.cons_append]
    exact staticResolve_digit_head c hcmem _ ctx ref
  have hscan : scanL tryAgo (agoPhraseL n u pl) = some (natDigits n, spell u pl) := by
    apply scanL_head_some
    rw [agoPhraseL,
      tryAgo_digits (natDigits n) (agoTail u pl) (natDigits_ne_nil n) hdig
        (head_agoTail_nondigit u pl), agoRest_agoTail]
    rfl
  have hnoi : ∀ x ∈ agoPhraseL n u pl, lowerChar x ≠ 'i' := by
    intro x hx
    rw [agoPhraseL, List.mem_append] at hx
    rcases hx with hx | hx
    · exact digitChars_not_i (hsub x hx)
    · exact agoTail_no_i u pl x hx
  have hscanIn : scanL tryIn (agoPhraseL n u pl) = none := scanL_tryIn_none _ hnoi
  have hscanFN : scanL tryFromNow (agoPhraseL n u pl) = none := by
    rw [agoPhraseL]
    apply scanL_append_none
    · intro ds' hs hne
      rw [tryFromNow_digits ds' _ hne (fun x hx => hdig x (hs.mem hx))
        (head_agoTail_nondigit u pl), fromNowRest_agoTail]
      rfl
    · exact scanFN_agoTail u pl
  have hstep1 : parsePhrase (agoPhraseL n u pl) ctx b now =
      agoBranch (agoPhraseL n u pl) ctx
        ((extractDateFromFilename b ctx now).getD now) now := by
    unfold parsePhrase
    simp only [htrim, hlower, hstatic]
  rw [hstep1]
  have hstep2 : agoBranch (agoPhraseL n u pl) ctx
      ((extractDateFromFilename b ctx now).getD now) now =
      (match unitToType u ctx with
       | some ty =>
         some ⟨ty, subUnit ((extractDateFromFilename b ctx now).getD now) n u⟩
       | none =>
         inBranch (agoPhraseL n u pl) ctx
           ((extractDateFromFilename b ctx now).getD now) now) := by
    unfold agoBranch
    rw [hscan]
    simp only [normalizeUnit_spell, parseDigits_natDigits]
  rw [hstep2]
  cases hut : unitToType u ctx with
  | some ty => rfl
  | none =>
    unfold inBranch
    rw [hscanIn]
    unfold fromNowBranch
    rw [hscanFN]

lemma head?_cons_inv {c x : Char} {t : List Char} (h : (c :: t).head? = some x) :
    x = c := by
  simpa using h.symm

lemma parsePhrase_inPhrase (n : Nat) (u : MUnit) (pl : Bool) (ctx : PType)
    (b : List Char) (now : RDate) :
    parsePhrase (inPhraseL n u pl) ctx b now =
      match unitToType u ctx with
      | some ty =>
        some ⟨ty, addUnit ((extractDateFromFilename b ctx now).getD now) n u⟩
      | none => none := by
  obtain ⟨c, cs, hds⟩ : ∃ c cs, natDigits n = c :: cs := by
    cases hn : natDigits n with
    | nil => exact absurd hn (natDigits_ne_nil n)
    | cons c cs => exact ⟨c, cs, rfl⟩
  have hsub : ∀ x ∈ natDigits n, x ∈ digitChars := natDigits_mem n
  have hdig : ∀ x ∈ natDigits n, x.isDigit = true := fun x hx => digitChars_isDigit (hsub x hx)
  have hcmem : c ∈ digitChars := hsub c (by rw [hds]; simp)
  have hXne : natDigits n ++ inTail u pl ≠ [] := by
    intro h
    exact natDigits_ne_nil n (List.append_eq_nil.1 h).1
  have hXheadMem : ∀ x, (natDigits n ++ inTail u pl).head? = some x → x ∈ digitChars := by
    intro x hx
    rw [hds, List.cons_append] at hx
    rw [head?_cons_inv hx]
    exact hcmem
  have hshape : inPhraseL n u pl = 'i' :: 'n' :: ' ' :: (natDigits n ++ inTail u pl) := rfl
  have htrim : trimL (inPhraseL n u pl) = inPhraseL n u pl := by
    apply trimL_id
    · intro x hx
      rw [hshape] at hx
      rw [head?_cons_inv hx]
      decide
    · intro x hx
      rw [show inPhraseL n u pl = ['i', 'n', ' '] ++ (natDigits n ++ inTail u pl) from rfl,
        List.getLast?_append_of_ne_nil _ hXne,
        List.getLast?_append_of_ne_nil _ (by simp [inTail])] at hx
      exact getLast_inTail u pl x hx
  have hlower : lowerL (inPhraseL n u pl) = inPhraseL n u pl := by
    rw [show inPhraseL n u pl = ['i', 'n', ' '] ++ (natDigits n ++ inTail u pl) from rfl,
      lowerL, List.map_append, List.map_append]
    rw [map_self lowerChar (natDigits n) (fun x hx => digitChars_lower (hsub x hx))]
    rw [show (inTail u pl).map lowerChar = inTail u pl from lowerL_inTail u pl]
    rfl
  have hstatic : ∀ ref, staticResolve (inPhraseL n u pl) ctx ref = none := by
    intro ref
    rw [hshape]
    exact staticResolve_i_head _ ctx ref
  have hagoI : tryAgo ('i' :: 'n' :: ' ' :: (natDigits n ++ inTail u pl)) = none :=
    tryAgo_none_head _ (fun x hx => by rw [head?_cons_inv hx]; decide)
  have hagoN : tryAgo ('n' :: ' ' :: (natDigits n ++ inTail u pl)) = none :=
    tryAgo_none_head _ (fun x hx => by rw [head?_cons_inv hx]; decide)
  have hagoS : tryAgo (' ' :: (natDigits n ++ inTail u pl)) = none :=
    tryAgo_none_head _ (fun x hx => by rw [head?_cons_inv hx]; decide)
  have hscanAgo : scanL tryAgo (inPhraseL n u pl) = none := by
    show scanL tryAgo ('i' :: 'n' :: ' ' :: (natDigits n ++ inTail u pl)) = none
    rw [scanL_cons, hagoI]
    show scanL tryAgo ('n' :: ' ' :: (natDigits n ++ inTail u pl)) = none
    rw [scanL_cons, hagoN]
    show scanL tryAgo (' ' :: (natDigits n ++ inTail u pl)) = none
    rw [scanL_cons, hagoS]
    show scanL tryAgo (natDigits n ++ inTail u pl) = none
    apply scanL_append_none
    · intro ds' hs hne
      rw [tryAgo_digits ds' _ hne (fun x hx => hdig x (hs.mem hx))
        (head_inTail_nondigit u pl), agoRest_inTail]
      rfl
    · exact scanAgo_inTail u pl
  have hdropX : (natDigits n ++ inTail u pl).dropWhile isWsChar =
      natDigits n ++ inTail u pl := by
    apply dropWhile_eq_self_of_head
    intro x hx
    exact digitChars_not_ws (hXheadMem x hx)
  have htryIn : tryIn (inPhraseL n u pl) = some (natDigits n, spell u pl) := by
    have h1 : tryIn (inPhraseL n u pl) =
        inRest ((natDigits n ++ inTail u pl).dropWhile isWsChar) := rfl
    rw [h1, hdropX,
      inRest_digits (natDigits n) (inTail u pl) (natDigits_ne_nil n) hdig
        (head_inTail_nondigit u pl), inCont_inTail]
    rfl
  have hscanIn : scanL tryIn (inPhraseL n u pl) = some (natDigits n, spell u pl) :=
    scanL_head_some _ _ _ htryIn
  have hfnI : tryFromNow ('i' :: 'n' :: ' ' :: (natDigits n ++ inTail u pl)) = none :=
    tryFromNow_none_head _ (fun x hx => by rw [head?_cons_inv hx]; decide)
  have hfnN : tryFromNow ('n' :: ' ' :: (natDigits n ++ inTail u pl)) = none :=
    tryFromNow_none_head _ (fun x hx => by rw [head?_cons_inv hx]; decide)
  have hfnS : tryFromNow (' ' :: (natDigits n ++ inTail u pl)) = none :=
    tryFromNow_none_head _ (fun x hx => by rw [head?_cons_inv hx]; decide)
  have hscanFN : scanL tryFromNow (inPhraseL n u pl) = none := by
    show scanL tryFromNow ('i' :: 'n' :: ' ' :: (natDigits n ++ inTail u pl)) = none
    rw [scanL_cons, hfnI]
    show scanL tryFromNow ('n' :: ' ' :: (natDigits n ++ inTail u pl)) = none
    rw [scanL_cons, hfnN]
    show scanL tryFromNow (' ' :: (natDigits n ++ inTail u pl)) = none
    rw [scanL_cons, hfnS]
    show scanL tryFromNow (natDigits n ++ inTail u pl) = none
    apply scanL_append_none
    · intro ds' hs hne
      rw [tryFromNow_digits ds' _ hne (fun x hx => hdig x (hs.mem hx))
        (head_inTail_nondigit u pl), fromNowRest_inTail]
      rfl
    · exact scanFN_inTail u pl
  have hstep1 : parsePhrase (inPhraseL n u pl) ctx b now =
      agoBranch (inPhraseL n u pl) ctx
        ((extractDateFromFilename b ctx now).getD now) now := by
    unfold parsePhrase
    simp only [htrim, hlower, hstatic]
  rw [hstep1]
  have hstep2 : agoBranch (inPhraseL n u pl) ctx
      ((extractDateFromFilename b ctx now).getD now) now =
      inBranch (inPhraseL n u pl) ctx
        ((extractDateFromFilename b ctx now).getD now) now := by
    unfold agoBranch
    rw [hscanAgo]
  rw [hstep2]
  have hstep3 : inBranch (inPhraseL n u pl) ctx
      ((extractDateFromFilename b ctx now).getD now) now =
      (match unitToType u ctx with
       | some ty =>
         some ⟨ty, addUnit ((extractDateFromFilename b ctx now).getD now) n u⟩
       | none =>
         fromNowBranch (inPhraseL n u pl) ctx now) := by
    unfold inBranch
    rw [hscanIn]
    simp only [normalizeUnit_spell, parseDigits_natDigits]
  rw [hstep3]
  cases hut : unitToType u ctx with
  | some ty => rfl
  | none =>
    unfold fromNowBranch
    rw [hscanFN]

lemma parsePhrase_fromNowPhrase (n : Nat) (u : MUnit) (pl : Bool) (ctx : PType)
    (b : List Char) (now : RDate) :
    parsePhrase (fromNowPhraseL n u pl) ctx b now =
      match unitToType u ctx with
      | some ty => some ⟨ty, addUnit now n u⟩
      | none => none := by
  obtain ⟨c, cs, hds⟩ : ∃ c cs, natDigits n = c :: cs := by
    cases hn : natDigits n with
    | nil => exact absurd hn (natDigits_ne_nil n)
    | cons c cs => exact ⟨c, cs, rfl⟩
  have hsub : ∀ x ∈ natDigits n, x ∈ digitChars := natDigits_mem n
  have hdig : ∀ x ∈ natDigits n, x.isDigit = true := fun x hx => digitChars_isDigit (hsub x hx)
  have hcmem : c ∈ digitChars := hsub c (by rw [hds]; simp)
  have htailne : fnTail u pl ≠ [] := by simp [fnTail]
  have htrim : trimL (fromNowPhraseL n u pl) = fromNowPhraseL n u pl := by
    apply trimL_id
    · intro x hx
      rw [fromNowPhraseL, hds, List.cons_append] at hx
      rw [head?_cons_inv hx]
      exact digitChars_not_ws hcmem
    · intro x hx
      rw [fromNowPhraseL, List.getLast?_append_of_ne_nil _ htailne] at hx
      exact getLast_fnTail u pl x hx
  have hlower : lowerL (fromNowPhraseL n u pl) = fromNowPhraseL n u pl := by
    rw [fromNowPhraseL, lowerL, List.map_append]
    rw [map_self lowerChar (natDigits n) (fun x hx => digitChars_lower (hsub x hx))]
    rw [show (fnTail u pl).map lowerChar = fnTail u pl from lowerL_fnTail u pl]
  have hstatic : ∀ ref, staticResolve (fromNowPhraseL n u pl) ctx ref = none := by
    intro ref
    rw [fromNowPhraseL, hds, List.cons_append]
    exact staticResolve_digit_head c hcmem _ ctx ref
  have hscanAgo : scanL tryAgo (fromNowPhraseL n u pl) = none := by
    rw [fromNowPhraseL]
    apply scanL_append_none
    · intro ds' hs hne
      rw [tryAgo_digits ds' _ hne (fun x hx => hdig x (hs.mem hx))
        (head_fnTail_nondigit u pl), agoRest_fnTail]
      rfl
    · exact scanAgo_fnTail u pl
  have hnoi : ∀ x ∈ fromNowPhraseL n u pl, lowerChar x ≠ 'i' := by
    intro x hx
    rw [fromNowPhraseL, List.mem_append] at hx
    rcases hx with hx | hx
    · exact digitChars_not_i (hsub x hx)
    · exact fnTail_no_i u pl x hx
  have hscanIn : scanL tryIn (fromNowPhraseL n u pl) = none := scanL_tryIn_none _ hnoi
  have hscanFN : scanL tryFromNow (fromNowPhraseL n u pl) =
      some (natDigits n, spell u pl) := by
    apply scanL_head_some
    rw [fromNowPhraseL,
      tryFromNow_digits (natDigits n) (fnTail u pl) (natDigits_ne_nil n) hdig
        (head_fnTail_nondigit u pl), fromNowRest_fnTail]
    rfl
  have hstep1 : parsePhrase (fromNowPhraseL n u pl) ctx b now =
      agoBranch (fromNowPhraseL n u pl) ctx
        ((extractDateFromFilename b ctx now).getD now) now := by
    unfold parsePhrase
    simp only [htrim, hlower, hstatic]
  rw [hstep1]
  have hstep2 : agoBranch (fromNowPhraseL n u pl) ctx
      ((extractDateFromFilename b ctx now).getD now) now =
      inBranch (fromNowPhraseL n u pl) ctx
        ((extractDateFromFilename b ctx now).getD now) now := by
    unfold agoBranch
    rw [hscanAgo]
  rw [hstep2]
  have hstep3 : inBranch (fromNowPhraseL n u pl) ctx
      ((extractDateFromFilename b ctx now).getD now) now =
      fromNowBranch (fromNowPhraseL n u pl) ctx now := by
    unfold inBranch
    rw [hscanIn]
  rw [hstep3]
  unfold fromNowBranch
  rw [hscanFN]
  simp only [normalizeUnit_spell, parseDigits_natDigits]

/-! ## Case-insensitivity: every matcher commutes with lower-casing -/

lemma lowerChar_digit {c : Char} (h : c.isDigit = true) : lowerChar c = c := by
  unfold lowerChar
  split <;> first | rfl | (exact absurd h (by decide))

lemma lowerL_idem (l : List Char) : lowerL (lowerL l) = lowerL l := by
  induction l with
  | nil => rfl
  | cons c t ih => simp only [lowerL, List.map_cons] at ih ⊢; rw [lowerChar_idem, ih]

lemma dropWhile_lowerL (p : Char → Bool) (hp : ∀ c, p (lowerChar c) = p c)
    (l : List Char) : (lowerL l).dropWhile p = lowerL (l.dropWhile p) := by
  induction l with
  | nil => rfl
  | cons c t ih =>
    show (lowerChar c :: lowerL t).dropWhile p = _
    by_cases h : p c
    · simp [List.dropWhile, hp c, h, ih]
    · simp only [List.dropWhile, hp c, h]
      rfl

lemma takeWhile_lowerL (p : Char → Bool) (hp : ∀ c, p (lowerChar c) = p c)
    (l : List Char) : (lowerL l).takeWhile p = lowerL (l.takeWhile p) := by
  induction l with
  | nil => rfl
  | cons c t ih =>
    show (lowerChar c :: lowerL t).takeWhile p = _
    by_cases h : p c
    · simp [List.takeWhile, hp c, h, ih]
      rfl
    · simp [List.takeWhile, hp c, h]
      rfl

lemma trimL_lowerL (l : List Char) : trimL (lowerL l) = lowerL (trimL l) := by
  unfold trimL
  rw [dropWhile_lowerL isWsChar isWs_lowerChar]
  rw [show (lowerL (l.dropWhile isWsChar)).reverse = lowerL (l.dropWhile isWsChar).reverse
    from (List.map_reverse _ _).symm]
  rw [dropWhile_lowerL isWsChar isWs_lowerChar]
  exact (List.map_reverse _ _).symm

lemma eatStrCI_lowerL (pat l : List Char) :
    eatStrCI pat (lowerL l) = (eatStrCI pat l).map lowerL := by
  induction pat generalizing l with
  | nil => rfl
  | cons p ps ih =>
    cases l with
    | nil => rfl
    | cons c t =>
      show eatStrCI (p :: ps) (lowerChar c :: lowerL t) = _
      simp only [eatStrCI, lowerChar_idem]
      by_cases h : lowerChar c = p
      · simp [h, ih]
      · simp [h]

lemma eatCICap_lowerL (pat l : List Char) :
    eatCICap pat (lowerL l) =
      (eatCICap pat l).map (fun q => (lowerL q.1, lowerL q.2)) := by
  induction pat generalizing l with
  | nil => rfl
  | cons p ps ih =>
    cases l with
    | nil => rfl
    | cons c t =>
      show eatCICap (p :: ps) (lowerChar c :: lowerL t) = _
      simp only [eatCICap, lowerChar_idem]
      by_cases h : lowerChar c = p
      · simp only [h, if_true, ih]
        cases eatCICap ps t with
        | none => rfl
        | some q => simp [lowerL, h]
      · simp [h]

lemma eatWs1_lowerL (l : List Char) : eatWs1 (lowerL l) = (eatWs1 l).map lowerL := by
  cases l with
  | nil => rfl
  | cons c t =>
    show eatWs1 (lowerChar c :: lowerL t) = _
    simp only [eatWs1, isWs_lowerChar]
    by_cases h : isWsChar c
    · simp [h, dropWhile_lowerL isWsChar isWs_lowerChar]
    · simp [h]

lemma eatUnitWord_lowerL (w l : List Char) :
    eatUnitWord w (lowerL l) =
      (eatUnitWord w l).map (fun q => (lowerL q.1, lowerL q.2)) := by
  unfold eatUnitWord
  rw [eatCICap_lowerL]
  cases eatCICap w l with
  | none => rfl
  | some q =>
    obtain ⟨q1, q2⟩ := q
    cases q2 with
    | nil => rfl
    | cons c t =>
      simp only [Option.map, lowerChar_idem]
      by_cases h : lowerChar c = 's'
      · simp [lowerChar_idem, h, lowerL, show lowerChar 's' = 's' from rfl]
      · simp [lowerChar_idem, h, lowerL]

lemma eatUnitCap_lowerL (l : List Char) :
    eatUnitCap (lowerL l) = (eatUnitCap l).map (fun q => (lowerL q.1, lowerL q.2)) := by
  unfold eatUnitCap
  rw [eatUnitWord_lowerL, eatUnitWord_lowerL, eatUnitWord_lowerL, eatUnitWord_lowerL,
    eatUnitWord_lowerL]
  cases eatUnitWord (r"day").data l with
  | some q => rfl
  | none =>
    simp only [Option.map_none, Option.none_orElse]
    cases eatUnitWord (r"week").data l with
    | some q => rfl
    | none =>
      simp only [Option.map_none, Option.none_orElse]
      cases eatUnitWord (r"month").data l with
      | some q => rfl
      | none =>
        simp only [Option.map_none, Option.none_orElse]
        cases eatUnitWord (r"quarter").data l with
        | some q => rfl
        | none => rfl

lemma takeWhile_digits_lowerL (l : List Char) :
    (lowerL l).takeWhile Char.isDigit = l.takeWhile Char.isDigit := by
  rw [takeWhile_lowerL Char.isDigit isDigit_lowerChar]
  exact map_self _ _ (fun x hx => lowerChar_digit (List.mem_takeWhile_imp hx))

lemma agoRest_lowerL (r1 : List Char) :
    agoRest (lowerL r1) = (agoRest r1).map lowerL := by
  unfold agoRest
  rw [eatWs1_lowerL]
  cases eatWs1 r1 with
  | none => rfl
  | some r2 =>
    simp only [Option.map_some', Option.some_bind, Option.bind_eq_bind]
    rw [eatUnitCap_lowerL]
    cases eatUnitCap r2 with
    | none => rfl
    | some q =>
      obtain ⟨cap, r3⟩ := q
      simp only [Option.map_some', Option.some_bind, Option.bind_eq_bind]
      rw [eatWs1_lowerL]
      cases eatWs1 r3 with
      | none => rfl
      | some r4 =>
        simp only [Option.map_some', Option.some_bind, Option.bind_eq_bind]
        rw [eatStrCI_lowerL]
        cases eatStrCI (r"ago").data r4 with
        | none => rfl
        | some r5 => rfl

lemma tryAgo_lowerL (l : List Char) :
    tryAgo (lowerL l) = (tryAgo l).map (fun p => (p.1, lowerL p.2)) := by
  unfold tryAgo
  rw [takeWhile_digits_lowerL, dropWhile_lowerL Char.isDigit isDigit_lowerChar]
  by_cases h : l.takeWhile Char.isDigit = []
  · simp [h]
  · simp only [h, if_false]
    rw [agoRest_lowerL]
    cases agoRest (l.dropWhile Char.isDigit) with
    | none => rfl
    | some cap => rfl

lemma fromNowRest_lowerL (r1 : List Char) :
    fromNowRest (lowerL r1) = (fromNowRest r1).map lowerL := by
  unfold fromNowRest
  rw [eatWs1_lowerL]
  cases eatWs1 r1 with
  | none => rfl
  | some r2 =>
    simp only [Option.map_some', Option.some_bind, Option.bind_eq_bind]
    rw [eatUnitCap_lowerL]
    cases eatUnitCap r2 with
    | none => rfl
    | some q =>
      obtain ⟨cap, r3⟩ := q
      simp only [Option.map_some', Option.some_bind, Option.bind_eq_bind]
      rw [eatWs1_lowerL]
      cases eatWs1 r3 with
      | none => rfl
      | some r4 =>
        simp only [Option.map_some', Option.some_bind, Option.bind_eq_bind]
        rw [eatStrCI_lowerL]
        cases eatStrCI (r"from").data r4 with
        | none => rfl
        | some r5 =>
          simp only [Option.map_some', Option.some_bind, Option.bind_eq_bind]
          rw [eatWs1_lowerL]
          cases eatWs1 r5 with
          | none => rfl
          | some r6 =>
            simp only [Option.map_some', Option.some_bind, Option.bind_eq_bind]
            rw [eatStrCI_lowerL]
            cases eatStrCI (r"now").data r6 with
            | none => rfl
            | some r7 => rfl

lemma tryFromNow_lowerL (l : List Char) :
    tryFromNow (lowerL l) = (tryFromNow l).map (fun p => (p.1, lowerL p.2)) := by
  unfold tryFromNow
  rw [takeWhile_digits_lowerL, dropWhile_lowerL Char.isDigit isDigit_lowerChar]
  by_cases h : l.takeWhile Char.isDigit = []
  · simp [h]
  · simp only [h, if_false]
    rw [fromNowRest_lowerL]
    cases fromNowRest (l.dropWhile Char.isDigit) with
    | none => rfl
    | some cap => rfl

lemma inCont_lowerL (t : List Char) : inCont (lowerL t) = (inCont t).map lowerL := by
  unfold inCont
  rw [eatWs1_lowerL]
  cases eatWs1 t with
  | none => rfl
  | some r3 =>
    simp only [Option.map_some', Option.some_bind, Option.bind_eq_bind]
    rw [eatUnitCap_lowerL]
    cases eatUnitCap r3 with
    | none => rfl
    | some q => rfl

lemma inRest_lowerL (r2 : List Char) :
    inRest (lowerL r2) = (inRest r2).map (fun p => (p.1, lowerL p.2)) := by
  unfold inRest
  rw [takeWhile_digits_lowerL, dropWhile_lowerL Char.isDigit isDigit_lowerChar]
  by_cases h : r2.takeWhile Char.isDigit = []
  · simp [h]
  · simp only [h, if_false]
    rw [inCont_lowerL]
    cases inCont (r2.dropWhile Char.isDigit) with
    | none => rfl
    | some cap => rfl

lemma tryIn_lowerL (l : List Char) :
    tryIn (lowerL l) = (tryIn l).map (fun p => (p.1, lowerL p.2)) := by
  unfold tryIn
  rw [eatStrCI_lowerL]
  cases eatStrCI (r"in").data l with
  | none => rfl
  | some r1 =>
    simp only [Option.map_some', Option.some_bind, Option.bind_eq_bind]
    rw [eatWs1_lowerL]
    cases eatWs1 r1 with
    | none => rfl
    | some r2 =>
      simp only [Option.map_some', Option.some_bind, Option.bind_eq_bind]
      exact inRest_lowerL r2

lemma scanL_comm_lower {α : Type} (f : List Char → Option α) (h : α → α)
    (hf : ∀ l, f (lowerL l) = (f l).map h) (l : List Char) :
    scanL f (lowerL l) = (scanL f l).map h := by
  induction l with
  | nil => exact hf []
  | cons c t ih =>
    show scanL f (lowerChar c :: lowerL t) = _
    rw [scanL_cons, scanL_cons]
    rw [show f (lowerChar c :: lowerL t) = (f (c :: t)).map h from hf (c :: t)]
    cases f (c :: t) with
    | some a => rfl
    | none => simpa using ih

lemma normalizeUnit_lowerL (u : List Char) :
    normalizeUnit (lowerL u) = normalizeUnit u := by
  simp only [normalizeUnit, lowerL_idem]

lemma parseDigits_eq_of_fst {p : List Char × List Char} : (p.1, lowerL p.2).1 = p.1 := rfl

lemma fromNowBranch_lowerL (l : List Char) (ctx : PType) (now : RDate) :
    fromNowBranch (lowerL l) ctx now = fromNowBranch l ctx now := by
  unfold fromNowBranch
  rw [scanL_comm_lower tryFromNow (fun p => (p.1, lowerL p.2)) tryFromNow_lowerL l]
  cases scanL tryFromNow l with
  | none => rfl
  | some p =>
    simp only [Option.map_some']
    rw [normalizeUnit_lowerL p.2]

lemma inBranch_lowerL (l : List Char) (ctx : PType) (ref now : RDate) :
    inBranch (lowerL l) ctx ref now = inBranch l ctx ref now := by
  unfold inBranch
  rw [scanL_comm_lower tryIn (fun p => (p.1, lowerL p.2)) tryIn_lowerL l]
  cases scanL tryIn l with
  | none => exact fromNowBranch_lowerL l ctx now
  | some p =>
    simp only [Option.map_some']
    rw [normalizeUnit_lowerL p.2]
    cases unitToType (normalizeUnit p.2) ctx with
    | some ty => rfl
    | none => exact fromNowBranch_lowerL l ctx now

lemma agoBranch_lowerL (l : List Char) (ctx : PType) (ref now : RDate) :
    agoBranch (lowerL l) ctx ref now = agoBranch l ctx ref now := by
  unfold agoBranch
  rw [scanL_comm_lower tryAgo (fun p => (p.1, lowerL p.2)) tryAgo_lowerL l]
  cases scanL tryAgo l with
  | none => exact inBranch_lowerL l ctx ref now
  | some p =>
    simp only [Option.map_some']
    rw [normalizeUnit_lowerL p.2]
    cases unitToType (normalizeUnit p.2) ctx with
    | some ty => rfl
    | none => exact inBranch_lowerL l ctx ref now

lemma parsePhrase_lowerL (p : List Char) (ctx : PType) (b : List Char) (now : RDate) :
    parsePhrase (lowerL p) ctx b now = parsePhrase p ctx b now := by
  unfold parsePhrase
  rw [lowerL_idem]
  simp only [agoBranch_lowerL]

/-! ## Span facts for the phrase recognizer -/

lemma attemptAt_some (coreEat : List Char → Option (List Char)) (useWb : Bool)
    (l : List Char) (i : Nat) (bOk : Bool) (m : PhraseMatch)
    (h : attemptAt coreEat useWb l i bOk = some m) :
    m.startOff = i ∧ m.endOff = i + l.length := by
  unfold attemptAt at h
  by_cases hb : !useWb || bOk
  · simp only [hb, if_true] at h
    cases hc : coreEat l with
    | none => simp [hc] at h
    | some r =>
      rw [hc] at h
      by_cases hd : r.all isDelim
      · simp only [hd, if_true] at h
        injection h with h'
        rw [← h']
        exact ⟨rfl, rfl⟩
      · simp [hd] at h
  · simp [hb] at h

lemma searchCore_some (coreEat : List Char → Option (List Char)) (useWb : Bool)
    (l : List Char) : ∀ (i : Nat) (bOk : Bool) (m : PhraseMatch),
    searchCore coreEat useWb l i bOk = some m →
      m.endOff = i + l.length ∧ i ≤ m.startOff ∧ m.startOff ≤ m.endOff := by
  induction l with
  | nil =>
    intro i bOk m h
    obtain ⟨h1, h2⟩ := attemptAt_some coreEat useWb [] i bOk m h
    exact ⟨by simpa using h2, by omega, by omega⟩
  | cons c t ih =>
    intro i bOk m h
    rw [searchCore] at h
    cases ha : attemptAt coreEat useWb (c :: t) i bOk with
    | some m0 =>
      rw [ha] at h
      injection h with h'
      obtain ⟨h1, h2⟩ := attemptAt_some coreEat useWb (c :: t) i bOk m0 ha
      rw [← h']
      exact ⟨h2, by omega, by omega⟩
    | none =>
      rw [ha] at h
      obtain ⟨h1, h2, h3⟩ := ih (i + 1) (!isWordChar c) m h
      refine ⟨by simp at h1 ⊢; omega, by omega, h3⟩

lemma searchPat_some (coreEat : List Char → Option (List Char)) (useWb : Bool)
    (before : List Char) (m : PhraseMatch)
    (h : searchPat coreEat useWb before = some m) :
    m.endOff = before.length ∧ m.startOff ≤ m.endOff := by
  obtain ⟨h1, _, h3⟩ := searchCore_some coreEat useWb before 0 true m h
  exact ⟨by simpa using h1, h3⟩

/-! ## Round-trip facts for the format matcher -/

lemma eatDigitsK_exact (ds rest : List Char) (hd : ∀ c ∈ ds, c.isDigit = true) :
    eatDigitsK ds.length (ds ++ rest) = some (ds, rest) := by
  induction ds with
  | nil => rfl
  | cons c t ih =>
    show eatDigitsK (t.length + 1) (c :: (t ++ rest)) = _
    simp only [eatDigitsK, hd c (by simp), if_true]
    rw [ih (fun x hx => hd x (by simp [hx]))]
    rfl

lemma padZeros_length (w : Nat) (l : List Char) (h : l.length ≤ w) :
    (padZeros w l).length = w := by
  simp [padZeros]
  omega

lemma padZeros_digits (w : Nat) (l : List Char) (h : ∀ c ∈ l, c.isDigit = true) :
    ∀ c ∈ padZeros w l, c.isDigit = true := by
  intro c hc
  rw [padZeros, List.mem_append] at hc
  rcases hc with hc | hc
  · rw [List.eq_of_mem_replicate hc]; decide
  · exact h c hc

lemma parseDigits_zero_cons (l : List Char) : parseDigits ('0' :: l) = parseDigits l := rfl

lemma parseDigits_padZeros (w : Nat) (l : List Char) :
    parseDigits (padZeros w l) = parseDigits l := by
  rw [padZeros]
  induction w - l.length with
  | zero => rfl
  | succ k ih =>
    rw [List.replicate_succ, List.cons_append]
    rw [parseDigits_zero_cons]
    exact ih

lemma natDigits_isDigit (n : Nat) : ∀ c ∈ natDigits n, c.isDigit = true :=
  fun c hc => digitChars_isDigit (natDigits_mem n c hc)

lemma renderNat_digits (w v : Nat) : ∀ c ∈ renderNat w v, c.isDigit = true :=
  padZeros_digits w (natDigits v) (natDigits_isDigit v)

lemma renderNat_length (w v : Nat) (h : v < 10 ^ w) (hw : 0 < w) :
    (renderNat w v).length = w :=
  padZeros_length w (natDigits v) (natDigits_length_le v w h hw)

lemma parseDigits_renderNat (w v : Nat) : parseDigits (renderNat w v) = v := by
  rw [renderNat, parseDigits_padZeros, parseDigits_natDigits]

lemma eatDigitsK_render (w v : Nat) (rest : List Char) (h : v < 10 ^ w) (hw : 0 < w) :
    eatDigitsK w (renderNat w v ++ rest) = some (renderNat w v, rest) := by
  have := eatDigitsK_exact (renderNat w v) rest (renderNat_digits w v)
  rwa [renderNat_length w v h hw] at this

lemma eatLit_self (s rest : List Char) : eatLit s (s ++ rest) = some rest := by
  induction s with
  | nil => rfl
  | cons c t ih => simp [eatLit, ih]

lemma eatTok_render (t : FToken) (D : RDate) (rest : List Char)
    (h : encodableTok D t = true) : eatTok t (renderTok D t ++ rest) = some rest := by
  cases t with
  | y4 =>
    have hb : D.y < 10 ^ 4 := by
      have : D.y ≤ 9999 := by simpa [encodableTok] using h
      omega
    simp [eatTok, renderTok, eatDigitsK_render 4 D.y rest hb (by omega)]
  | wy4 =>
    have hb : (isoWeekFields D).1 < 10 ^ 4 := by
      have : (isoWeekFields D).1 ≤ 9999 := by simpa [encodableTok] using h
      omega
    simp [eatTok, renderTok, eatDigitsK_render 4 _ rest hb (by omega)]
  | m2 =>
    have hb : 1 ≤ D.m ∧ D.m ≤ 12 := by simpa [encodableTok] using h
    have hlt : D.m < 10 ^ 2 := by omega
    simp only [eatTok, renderTok]
    rw [eatDigitsK_render 2 D.m rest hlt (by omega)]
    simp [parseDigits_renderNat, hb.1, hb.2]
  | d2 =>
    have hb : 1 ≤ D.d ∧ D.d ≤ 31 := by simpa [encodableTok] using h
    have hlt : D.d < 10 ^ 2 := by omega
    simp only [eatTok, renderTok]
    rw [eatDigitsK_render 2 D.d rest hlt (by omega)]
    simp [parseDigits_renderNat, hb.1, hb.2]
  | wk2 =>
    have hb : 1 ≤ (isoWeekFields D).2 ∧ (isoWeekFields D).2 ≤ 53 := by
      simpa [encodableTok] using h
    have hlt : (isoWeekFields D).2 < 10 ^ 2 := by omega
    simp only [eatTok, renderTok]
    rw [eatDigitsK_render 2 _ rest hlt (by omega)]
    simp [parseDigits_renderNat, hb.1, hb.2]
  | q1 =>
    have hb : 1 ≤ quarterOf D ∧ quarterOf D ≤ 4 := by simpa [encodableTok] using h
    simp only [eatTok, renderTok]
    generalize hq : quarterOf D = q at hb
    obtain ⟨hb1, hb2⟩ := hb
    interval_cases q <;> simp [renderNat, padZeros, natDigits, natDigitsAux, digitChar, eatTok]
  | slash => simp [eatTok, renderTok, eatCh]
  | lit s => simp [eatTok, renderTok, eatLit_self]

lemma matchToks_format (toks : List FToken) (D : RDate)
    (h : encodable toks D = true) : matchToks toks (formatDate toks D) = true := by
  induction toks with
  | nil => rfl
  | cons t ts ih =>
    have ht : encodableTok D t = true := by
      have := h
      simp [encodable, List.all_cons] at this
      exact this.1
    have hts : encodable ts D = true := by
      have := h
      simp [encodable, List.all_cons] at this
      simpa [encodable] using this.2
    have hfd : formatDate (t :: ts) D = renderTok D t ++ formatDate ts D := by
      simp [formatDate]
    rw [hfd]
    show matchToks (t :: ts) (renderTok D t ++ formatDate ts D) = true
    simp only [matchToks, eatTok_render t D (formatDate ts D) ht]
    exact ih hts

/-! ## Detection of a formatted name -/

/-- The claim's side condition "the name obtained by formatting D with that
    pattern (at a path consistent with the config's folder)", spelled out
    for both the plain and the folder-structure (slash) matching modes. -/
def inputOk (cfg : PConfig) (isCore strict : Bool) (D : RDate)
    (name path : List Char) : Bool :=
  if fmtHasSlash cfg.fmt ∧ isCore = false then
    (let parts := (stripMd path).splitOn '/'
     let segs := (formatDate cfg.fmt D).splitOn '/'
     decide (segs.length = (cfg.fmt.splitOn FToken.slash).length) &&
     decide (segs.length ≤ parts.length) &&
     decide (parts.drop (parts.length - segs.length) = segs) &&
     (!(strict && !cfg.folder.isEmpty) ||
       decide (List.intercalate ['/'] (parts.take (parts.length - segs.length)) = cfg.folder)))
  else
    decide (stripMd name = formatDate cfg.fmt D) &&
    (!(strict && !cfg.folder.isEmpty) || cfg.folder.isPrefixOf (dirOf path))

lemma folder_isEmpty_false {l : List Char} (h : l ≠ []) : l.isEmpty = false := by
  cases l with
  | nil => exact absurd rfl h
  | cons a b => rfl

lemma matchesConfig_roundtrip (cfg : PConfig) (isCore strict : Bool) (D : RDate)
    (name path : List Char) (henc : encodable cfg.fmt D = true)
    (hok : inputOk cfg isCore strict D name path = true) :
    matchesConfig name path cfg isCore strict = true := by
  unfold matchesConfig
  unfold inputOk at hok
  by_cases hsl : fmtHasSlash cfg.fmt = true ∧ isCore = false
  · rw [if_pos hsl] at hok ⊢
    simp only [Bool.and_eq_true, decide_eq_true_eq] at hok
    obtain ⟨⟨⟨hlen, hle⟩, hdrop⟩, hfold⟩ := hok
    simp only [matchesFolderStructure]
    rw [← hlen]
    rw [if_neg (by omega)]
    rw [hdrop]
    rw [show List.intercalate ['/'] ((formatDate cfg.fmt D).splitOn '/') =
      formatDate cfg.fmt D from List.intercalate_splitOn (formatDate cfg.fmt D) '/']
    rw [matchToks_format cfg.fmt D henc]
    rw [if_pos rfl]
    by_cases hstr : strict = true ∧ cfg.folder ≠ []
    · rw [if_pos hstr]
      have hfe : cfg.folder.isEmpty = false := folder_isEmpty_false hstr.2
      simp only [hstr.1, hfe, Bool.not_false, Bool.and_true, Bool.not_true,
        Bool.false_or] at hfold
      exact hfold
    · rw [if_neg hstr]
  · rw [if_neg hsl] at hok ⊢
    simp only [Bool.and_eq_true, decide_eq_true_eq] at hok
    obtain ⟨hname, hfold⟩ := hok
    rw [hname, matchToks_format cfg.fmt D henc]
    rw [if_pos rfl]
    by_cases hstr : strict = true ∧ cfg.folder ≠ []
    · rw [if_pos hstr]
      have hfe : cfg.folder.isEmpty = false := folder_isEmpty_false hstr.2
      simp only [hstr.1, hfe, Bool.not_false, Bool.and_true, Bool.not_true,
        Bool.false_or] at hfold
      exact hfold
    · rw [if_neg hstr]

lemma detectLoop_append (name path : List Char) (strict : Bool)
    (pre post : List (PConfig × Bool)) (cfg : PConfig) (flag : Bool)
    (hpre : ∀ cb ∈ pre, matchesConfig name path cb.1 cb.2 strict = false)
    (hcfg : matchesConfig name path cfg flag strict = true) :
    detectLoop name path strict (pre ++ (cfg, flag) :: post) = some cfg.ctype := by
  induction pre with
  | nil => simp [detectLoop, hcfg]
  | cons cb rest ih =>
    rw [List.cons_append]
    simp only [detectLoop]
    rw [hpre cb (by simp)]
    simp only [Bool.false_eq_true, if_false]
    exact ih (fun x hx => hpre x (by simp [hx]))

/-! ## Remaining helpers: weekday occurrences and empty detection -/

lemma resolveSpec_next_wd (w : Weekday) (ctx : Option PType) (anchor : RDate)
    (scope : Scope) :
    resolveSpec ((r"next ").data ++ wdName w) ctx anchor scope =
      if allowedTarget .daily ctx scope then some ⟨.daily, nextOccurrence anchor w⟩
      else none := by
  cases w <;> rfl

lemma resolveSpec_last_wd (w : Weekday) (ctx : Option PType) (anchor : RDate)
    (scope : Scope) :
    resolveSpec ((r"last ").data ++ wdName w) ctx anchor scope =
      if allowedTarget .daily ctx scope then some ⟨.daily, prevOccurrence anchor w⟩
      else none := by
  cases w <;> rfl

lemma nextOccurrence_self (R : RDate) : nextOccurrence R (weekdayOf R) = addDays R 7 := by
  unfold nextOccurrence
  rw [show 7 + (weekdayOf R).idx - (weekdayOf R).idx = 7 from by omega]
  rfl

lemma prevOccurrence_self (R : RDate) : prevOccurrence R (weekdayOf R) = subDays R 7 := by
  unfold prevOccurrence
  rw [show 7 + (weekdayOf R).idx - (weekdayOf R).idx = 7 from by omega]
  rfl

lemma detectLoop_none (name path : List Char) (strict : Bool) :
    ∀ L : List (PConfig × Bool),
      (∀ cb ∈ L, matchesConfig name path cb.1 cb.2 strict = false) →
      detectLoop name path strict L = none := by
  intro L
  induction L with
  | nil => intro _; rfl
  | cons cb rest ih =>
    intro h
    simp only [detectLoop]
    rw [h cb (by simp)]
    simp only [Bool.false_eq_true, if_false]
    exact ih (fun x hx => h x (by simp [hx]))

/-! ## The claims -/

/-- Claim C1, counterexample: the phrase `2 day ago` (count 2, singular unit
    spelling) resolves to a target in a daily context instead of yielding
    none, so the clause "count not 1 with singular spelling yields none" is
    false on the code: the regex `days?` accepts the singular for any count. -/
theorem c1_counterexample :
    (r"2 day ago").data = agoPhraseL 2 .days false ∧
    parsePhrase (r"2 day ago").data .daily (r"x").data ⟨2025, 6, 10⟩ =
      some ⟨.daily, ⟨2025, 6, 8⟩⟩ ∧
    parsePhrase (r"2 day ago").data .daily (r"x").data ⟨2025, 6, 10⟩ ≠ none := by
  refine ⟨by decide, by decide, by decide⟩

/-- Claim C1 as amended: for every count, context, document name and clock,
    the singular and the plural spelling of a unit in `<count> <unit> ago`
    resolve to exactly the same result (in particular, identically for
    count 1, and the singular never yields none when the plural resolves):
    pluralization is not validated by `parsePhrase`. -/
theorem c1_amended (n : Nat) (u : MUnit) (ctx : PType) (b : List Char) (now : RDate) :
    parsePhrase (agoPhraseL n u false) ctx b now =
      parsePhrase (agoPhraseL n u true) ctx b now := by
  rw [parsePhrase_agoPhrase, parsePhrase_agoPhrase]

/-- Claim C2: with scope current-type and context week, the phrase
    `tomorrow` resolves to none; with scope all-periodic and the same
    context and anchor it resolves to a day target one day after the anchor
    (spec-modelled scope-aware resolver). -/
theorem c2_ladder_gating (anchor : RDate) :
    resolveSpec (r"tomorrow").data (some .weekly) anchor .sameType = none ∧
    resolveSpec (r"tomorrow").data (some .weekly) anchor .allPeriodic =
      some ⟨.daily, addDays anchor 1⟩ :=
  ⟨rfl, rfl⟩

/-- Claim C3: for every reference date R whose weekday is W, `next W`
    resolves to R plus 7 days and `last W` resolves to R minus 7 days; the
    occurrence search never returns the reference day itself (spec-modelled
    weekday grammar). -/
theorem c3_weekday_never_today (R : RDate) :
    resolveSpec ((r"next ").data ++ wdName (weekdayOf R)) none R .everywhere =
      some ⟨.daily, addDays R 7⟩ ∧
    resolveSpec ((r"last ").data ++ wdName (weekdayOf R)) none R .everywhere =
      some ⟨.daily, subDays R 7⟩ := by
  constructor
  · rw [resolveSpec_next_wd, nextOccurrence_self]
    rfl
  · rw [resolveSpec_last_wd, prevOccurrence_self]
    rfl

/-- Claim C4: `<N> <U> ago` and `in <N> <U>` are computed from the anchor
    date (the date decoded from the current document's name, falling back
    to the clock), while `<N> <U> from now` is computed from wall-clock now,
    with no dependence on the document at all. -/
theorem c4_anchor_vs_now (n : Nat) (u : MUnit) (pl : Bool) (ctx : PType)
    (b : List Char) (now : RDate) :
    (parsePhrase (agoPhraseL n u pl) ctx b now =
      match unitToType u ctx with
      | some ty =>
        some ⟨ty, subUnit ((extractDateFromFilename b ctx now).getD now) n u⟩
      | none => none) ∧
    (parsePhrase (inPhraseL n u pl) ctx b now =
      match unitToType u ctx with
      | some ty =>
        some ⟨ty, addUnit ((extractDateFromFilename b ctx now).getD now) n u⟩
      | none => none) ∧
    (parsePhrase (fromNowPhraseL n u pl) ctx b now =
      match unitToType u ctx with
      | some ty => some ⟨ty, addUnit now n u⟩
      | none => none) :=
  ⟨parsePhrase_agoPhrase n u pl ctx b now, parsePhrase_inPhrase n u pl ctx b now,
    parsePhrase_fromNowPhrase n u pl ctx b now⟩

/-- Claim C5: a day-unit duration phrase resolves to a day-granularity
    target exactly when the context granularity is literally day; in every
    other context of the embedded function's domain it yields none, in all
    three dynamic forms. -/
theorem c5_day_unit_gate (n : Nat) (pl : Bool) (ctx : PType) (b : List Char)
    (now : RDate) :
    (parsePhrase (agoPhraseL n .days pl) ctx b now =
      if ctx = .daily then
        some ⟨.daily, subUnit ((extractDateFromFilename b ctx now).getD now) n .days⟩
      else none) ∧
    (parsePhrase (inPhraseL n .days pl) ctx b now =
      if ctx = .daily then
        some ⟨.daily, addUnit ((extractDateFromFilename b ctx now).getD now) n .days⟩
      else none) ∧
    (parsePhrase (fromNowPhraseL n .days pl) ctx b now =
      if ctx = .daily then some ⟨.daily, addUnit now n .days⟩ else none) := by
  refine ⟨?_, ?_, ?_⟩
  · rw [parsePhrase_agoPhrase]
    by_cases hc : ctx = .daily <;> simp [unitToType, hc]
  · rw [parsePhrase_inPhrase]
    by_cases hc : ctx = .daily <;> simp [unitToType, hc]
  · rw [parsePhrase_fromNowPhrase]
    by_cases hc : ctx = .daily <;> simp [unitToType, hc]

/-- Claim C6: with context day and a document name decoding to 2025-06-10,
    `3 days ago` resolves to the day target 2025-06-07; when the name fails
    to decode for the context granularity, the anchor falls back to
    wall-clock now. -/
theorem c6_anchor_example :
    (∀ (b : List Char) (now : RDate),
      extractDateFromFilename b .daily now = some ⟨2025, 6, 10⟩ →
      parsePhrase (r"3 days ago").data .daily b now = some ⟨.daily, ⟨2025, 6, 7⟩⟩) ∧
    (∀ (ctx : PType) (b : List Char) (now : RDate),
      extractDateFromFilename b ctx now = none →
      parsePhrase (r"3 days ago").data ctx b now =
        match unitToType .days ctx with
        | some ty => some ⟨ty, subUnit now 3 .days⟩
        | none => none) := by
  constructor
  · intro b now h
    have hm := parsePhrase_agoPhrase 3 .days true .daily b now
    rw [show agoPhraseL 3 .days true = (r"3 days ago").data from rfl] at hm
    rw [hm, h]
    rfl
  · intro ctx b now h
    have hm := parsePhrase_agoPhrase 3 .days true ctx b now
    rw [show agoPhraseL 3 .days true = (r"3 days ago").data from rfl] at hm
    rw [hm, h]
    rfl

/-- Witness for claim C6 at concrete inputs: the name `2025-06-10` decodes
    and `3 days ago` lands on 2025-06-07; the name `notes` does not decode
    and the anchor falls back to the supplied clock 2030-01-01, landing on
    2029-12-29. -/
theorem c6_anchor_example_witness :
    extractDateFromFilename (r"2025-06-10").data .daily ⟨2030, 1, 1⟩ =
      some ⟨2025, 6, 10⟩ ∧
    parsePhrase (r"3 days ago").data .daily (r"2025-06-10").data ⟨2030, 1, 1⟩ =
      some ⟨.daily, ⟨2025, 6, 7⟩⟩ ∧
    extractDateFromFilename (r"notes").data .daily ⟨2030, 1, 1⟩ = none ∧
    parsePhrase (r"3 days ago").data .daily (r"notes").data ⟨2030, 1, 1⟩ =
      some ⟨.daily, ⟨2029, 12, 29⟩⟩ :=
  ⟨by decide,
   c6_anchor_example.1 (r"2025-06-10").data ⟨2030, 1, 1⟩ (by decide),
   by decide,
   (c6_anchor_example.2 .daily (r"notes").data ⟨2030, 1, 1⟩ (by decide)).trans (by decide)⟩

/-- Claim C10: `parsePhrase` is case-insensitive in its phrase argument:
    lower-casing the phrase never changes the result. -/
theorem c10_case_insensitive (p : List Char) (ctx : PType) (b : List Char)
    (now : RDate) :
    parsePhrase p ctx b now = parsePhrase (lowerL p) ctx b now :=
  (parsePhrase_lowerL p ctx b now).symm

/-- Claim C7, counterexample: the round-trip claim fails as universally
    stated because `detect` returns the first matching candidate.  With the
    core daily source configured with the format `YYYY-MM` and the monthly
    config using the same format, the name formatted from the monthly
    config's date 2025-06 (encodable, at a root path consistent with its
    empty folder) is detected as daily, not monthly. -/
theorem c7_counterexample :
    detect ⟨some ⟨.daily, fmtMonthlyDefault, []⟩, [⟨.monthly, fmtMonthlyDefault, []⟩], false⟩
        (r"2025-06").data (r"2025-06.md").data = some .daily ∧
    (⟨.monthly, fmtMonthlyDefault, []⟩ : PConfig) ∈
      (candidates
        ⟨some ⟨.daily, fmtMonthlyDefault, []⟩, [⟨.monthly, fmtMonthlyDefault, []⟩], false⟩).map
        Prod.fst ∧
    stripMd (r"2025-06").data = formatDate fmtMonthlyDefault ⟨2025, 6, 1⟩ ∧
    validDate ⟨2025, 6, 1⟩ = true ∧
    encodable fmtMonthlyDefault ⟨2025, 6, 1⟩ = true ∧
    some PType.daily ≠ some PType.monthly := by
  refine ⟨by decide, by decide, by decide, by decide, by decide, by decide⟩

/-- Claim C7 as amended: for every loaded config and date encodable by its
    format, `detect` on the formatted name (at a path consistent with the
    config's folder) returns that config's granularity, provided no earlier
    candidate in the detection order matches the input — the clause the
    counterexample forces, since detection is first-match-wins. -/
theorem c7_roundtrip_amended (s : DetectorState) (pre post : List (PConfig × Bool))
    (cfg : PConfig) (flag : Bool) (D : RDate) (name path : List Char)
    (hcand : candidates s = pre ++ (cfg, flag) :: post)
    (_hv : validDate D = true)
    (henc : encodable cfg.fmt D = true)
    (hok : inputOk cfg flag s.strictFolder D name path = true)
    (hpre : ∀ cb ∈ pre, matchesConfig name path cb.1 cb.2 s.strictFolder = false) :
    detect s name path = some cfg.ctype := by
  unfold detect
  rw [hcand, detectLoop_append name path s.strictFolder pre post cfg flag hpre
    (matchesConfig_roundtrip cfg flag s.strictFolder D name path henc hok)]

/-- Witness for the amended claim C7: a lone monthly config with the
    default `YYYY-MM` format detects its own formatted name. -/
theorem c7_roundtrip_amended_witness :
    validDate ⟨2025, 6, 1⟩ = true ∧
    encodable fmtMonthlyDefault ⟨2025, 6, 1⟩ = true ∧
    inputOk ⟨.monthly, fmtMonthlyDefault, []⟩ false false ⟨2025, 6, 1⟩
      (r"2025-06").data (r"2025-06.md").data = true ∧
    detect ⟨none, [⟨.monthly, fmtMonthlyDefault, []⟩], false⟩ (r"2025-06").data
      (r"2025-06.md").data = some .monthly :=
  ⟨by decide, by decide, by decide,
   c7_roundtrip_amended ⟨none, [⟨.monthly, fmtMonthlyDefault, []⟩], false⟩ [] []
     ⟨.monthly, fmtMonthlyDefault, []⟩ false ⟨2025, 6, 1⟩ (r"2025-06").data
     (r"2025-06.md").data rfl (by decide) (by decide) (by decide)
     (fun cb hcb => absurd hcb (List.not_mem_nil cb))⟩

/-- Claim C8: the public operations are total functions into optional or
    list results; configuration absence yields the fallback table, none and
    the empty list; a name matching no configured candidate and no fallback
    pattern surfaces as none — never as an exception (exceptions do not
    exist in the embedding; the source's pattern-compile try/catch guards a
    call into the external moment library and is modelled by the total
    token matcher). -/
theorem c8_totality (strict : Bool) (name path : List Char) (ty : PType)
    (s : DetectorState) :
    (detect (loadConfigs none none strict) name path = detectCommonPatterns name) ∧
    (detectCommonPatterns name = none →
      detect (loadConfigs none none strict) name path = none) ∧
    (getConfig (loadConfigs none none strict) ty = none) ∧
    (getAllEnabledTypes (loadConfigs none none strict) false = []) ∧
    ((∀ cb ∈ candidates s, matchesConfig name path cb.1 cb.2 s.strictFolder = false) →
      detectCommonPatterns name = none → detect s name path = none) := by
  refine ⟨rfl, ?_, ?_, rfl, ?_⟩
  · intro h
    show detectCommonPatterns name = none
    exact h
  · show (if ty = .daily then none else none : Option PConfig) = none
    split <;> rfl
  · intro hall hnone
    unfold detect
    rw [detectLoop_none name path s.strictFolder (candidates s) hall, hnone]

/-- Witness for claim C8: with no configuration at all, the non-date name
    `hello` detects to none and the daily config lookup is empty. -/
theorem c8_totality_witness :
    detectCommonPatterns (r"hello").data = none ∧
    detect (loadConfigs none none false) (r"hello").data [] = none ∧
    getConfig (loadConfigs none none false) .daily = none :=
  ⟨by decide,
   (c8_totality false (r"hello").data [] .daily
     (loadConfigs none none false)).2.1 (by decide),
   (c8_totality false (r"hello").data [] .daily (loadConfigs none none false)).2.2.1⟩

/-- Claim C9: whenever the phrase recognizer returns a match for a cursor
    position inside the line, the span satisfies 0 ≤ start ≤ end and end
    equals the cursor offset: every pattern is anchored at the end of the
    before-cursor prefix. -/
theorem c9_span (line : List Char) (cursor : Nat) (enableNL ew : Bool)
    (m : PhraseMatch) (hc : cursor ≤ line.length)
    (h : findPhrase line cursor enableNL ew = some m) :
    m.startOff ≤ m.endOff ∧ m.endOff = cursor := by
  unfold findPhrase at h
  split at h
  · have h2 : (match List.findSome?
        (fun p => searchPat (eatStrCI p) true (line.take cursor)) staticPhrases with
      | some m0 => some m0
      | none =>
        List.findSome? (fun core => searchPat core false (line.take cursor))
          [coreAgoD ew, coreInD ew, coreFromNowD ew, coreNextLastWd, coreCountWd ew]) =
        some m := h
    cases hs : List.findSome?
        (fun p => searchPat (eatStrCI p) true (line.take cursor)) staticPhrases with
    | some m0 =>
      rw [hs] at h2
      injection h2 with h'
      obtain ⟨p, hp, hsp⟩ := List.exists_of_findSome?_eq_some hs
      obtain ⟨ha, hb⟩ := searchPat_some (eatStrCI p) true (line.take cursor) m0 hsp
      rw [← h']
      refine ⟨hb, ?_⟩
      rw [ha, List.length_take]
      omega
    | none =>
      rw [hs] at h2
      obtain ⟨core, hcore, hsp⟩ := List.exists_of_findSome?_eq_some h2
      obtain ⟨ha, hb⟩ := searchPat_some core false (line.take cursor) m hsp
      refine ⟨hb, ?_⟩
      rw [ha, List.length_take]
      omega
  · exact absurd h (by simp)

/-- Witness for claim C9: typing `tomorrow ` with the cursor at offset 9
    yields a match spanning offsets 0 to 9, ending exactly at the cursor. -/
theorem c9_span_witness :
    (9 : Nat) ≤ (r"tomorrow ").data.length ∧
    findPhrase (r"tomorrow ").data 9 true true =
      some ⟨(r"tomorrow").data, (r" ").data, 0, 9⟩ ∧
    (0 : Nat) ≤ 9 ∧ (9 : Nat) = 9 :=
  ⟨by decide, by decide,
   c9_span (r"tomorrow ").data 9 true true ⟨(r"tomorrow").data, (r" ").data, 0, 9⟩
     (by decide) (by decide)⟩
